import Mathlib

/-!
# Verification of the page-replacement simulation engine

Shallow embedding of the `PageReplacementSimulator` class (FIFO / LRU /
Optimal / Clock page-replacement algorithms) together with proofs of the
specification's claims about it.

Modelling conventions:
* JS numbers produced by `Number.parseInt` are either integers or `NaN`;
  we model them by the inductive type `Page` below (`Page.nan` = `NaN`).
* JS `Array.includes` uses SameValueZero equality (under which `NaN`
  equals `NaN`); this is structural equality on `Page`.  JS `indexOf`
  and `!==` use strict equality (under which `NaN` differs from `NaN`);
  this is `Page.seq` below.
* JS objects used as maps (`futureReferences`, `referenceFlags`) are
  modelled as association lists; object-key equality coincides with
  structural equality on `Page` (every integer has a distinct string
  key, `NaN` has the key `"NaN"`).
* The `while (true)` loop of `selectClockPage` is modelled with an
  explicit fuel parameter; termination within `2·F` inspections is one
  of the proved claims.
-/

/-- A JS page value as produced by `Number.parseInt`: an integer or `NaN`. -/
inductive Page where
  | int : Int → Page
  | nan : Page
deriving DecidableEq

/-- JS strict equality `===` on page values: `NaN !== NaN`. -/
def Page.seq : Page → Page → Bool
  | .int a, .int b => a == b
  | _, _ => false

/-- Lookup in a JS object used as a boolean map (`referenceFlags[p]`);
an absent key is `undefined`, which is falsy. -/
def flagGet (m : List (Page × Bool)) (p : Page) : Bool :=
  match m.find? (fun e => decide (e.1 = p)) with
  | some e => e.2
  | none => false

/-- JS object assignment `m[p] = b`: overwrite the entry if the key is
present, otherwise add it. -/
def flagSet (m : List (Page × Bool)) (p : Page) (b : Bool) : List (Page × Bool) :=
  if m.any (fun e => decide (e.1 = p)) then
    m.map (fun e => if e.1 = p then (e.1, b) else e)
  else m ++ [(p, b)]

/-- Lookup in the `futureReferences` object:
`this.dataStructures.futureReferences[page] || []`. -/
def futGet (m : List (Page × List Nat)) (p : Page) : List Nat :=
  match m.find? (fun e => decide (e.1 = p)) with
  | some e => e.2
  | none => []

/-- One iteration of the `calculateFutureReferences` loop body:
`if (!futureRefs[page]) futureRefs[page] = []; futureRefs[page].push(i)`. -/
def futPush (m : List (Page × List Nat)) (p : Page) (i : Nat) : List (Page × List Nat) :=
  if m.any (fun e => decide (e.1 = p)) then
    m.map (fun e => if e.1 = p then (e.1, e.2 ++ [i]) else e)
  else m ++ [(p, [i])]

/-- The loop of `calculateFutureReferences`, indexing the reference
string from position `i` onwards. -/
def calcFutureGo : List Page → Nat → List (Page × List Nat) → List (Page × List Nat)
  | [], _, m => m
  | p :: rest, i, m => calcFutureGo rest (i + 1) (futPush m p i)

/-- `calculateFutureReferences()`: maps each page to the ascending list of
indices at which it occurs in the reference string. -/
def calculateFutureReferences (refs : List Page) : List (Page × List Nat) :=
  calcFutureGo refs 0 []

/-- ASCII whitespace recognised by `trim` (the inputs of interest use
only these characters). -/
def isWS (c : Char) : Bool :=
  c = ' ' || c = '\t' || c = '\n' || c = '\r'

/-- JS `String.prototype.trim` on a character list. -/
def trimChars (s : List Char) : List Char :=
  ((s.dropWhile isWS).reverse.dropWhile isWS).reverse

/-- The loop of `String.prototype.split(",")`: accumulate the current
token (in reverse) and cut at every comma. -/
def splitCommasAux : List Char → List Char → List (List Char)
  | [], acc => [acc.reverse]
  | c :: rest, acc =>
    if c = ',' then acc.reverse :: splitCommasAux rest []
    else splitCommasAux rest (c :: acc)

/-- JS `s.split(",")`.  Note `"".split(",")` yields `[""]`, i.e. one empty
token, never an empty list. -/
def splitCommas (s : List Char) : List (List Char) := splitCommasAux s []

/-- Decimal digit value of a character (codepoints 48-57). -/
def digitVal (c : Char) : Option Nat :=
  let n := c.toNat
  if 48 ≤ n ∧ n ≤ 57 then some (n - 48) else none

/-- Hexadecimal digit value of a character: decimal digits, then the
codepoint ranges of a-f (97-102) and A-F (65-70). -/
def hexDigitVal (c : Char) : Option Nat :=
  let n := c.toNat
  if 48 ≤ n ∧ n ≤ 57 then some (n - 48)
  else if 97 ≤ n ∧ n ≤ 102 then some (n - 87)
  else if 65 ≤ n ∧ n ≤ 70 then some (n - 55)
  else none

/-- Parse the longest prefix of digits (given a digit reader and base);
`none` when no digit was consumed, which `parseInt` turns into `NaN`. -/
def parseDigitsAux (dv : Char → Option Nat) (base : Nat) : List Char → Option Nat → Option Nat
  | [], acc => acc
  | c :: rest, acc =>
    match dv c with
    | some d => parseDigitsAux dv base rest (some (acc.getD 0 * base + d))
    | none => acc

/-- JS `Number.parseInt(s)` (radix unspecified): optional sign, optional
`0x`/`0X` hexadecimal prefix, then the longest prefix of digits; `NaN`
when no digit is found.  The argument is already trimmed by the caller. -/
def jsParseInt (s : List Char) : Page :=
  let signAndRest : Int × List Char :=
    match s with
    | '-' :: rest => (-1, rest)
    | '+' :: rest => (1, rest)
    | _ => (1, s)
  let baseAndRest : Nat × (Char → Option Nat) × List Char :=
    match signAndRest.2 with
    | '0' :: 'x' :: rest => (16, hexDigitVal, rest)
    | '0' :: 'X' :: rest => (16, hexDigitVal, rest)
    | cs => (10, digitVal, cs)
  match parseDigitsAux baseAndRest.2.1 baseAndRest.1 baseAndRest.2.2 none with
  | some n => Page.int (signAndRest.1 * (n : Int))
  | none => Page.nan

/-- The algorithm-specific bookkeeping (`this.dataStructures`).  The JS
object only carries the fields of the active algorithm; absent fields are
modelled by their (never read) initial values. -/
structure DataStructures where
  queue : List Page
  recencyList : List Page
  futureReferences : List (Page × List Nat)
  referenceFlags : List (Page × Bool)
  clockPointer : Nat
deriving DecidableEq

/-- The empty `this.dataStructures = {}` of the constructor. -/
def emptyDS : DataStructures :=
  { queue := [], recencyList := [], futureReferences := [],
    referenceFlags := [], clockPointer := 0 }

/-- One entry of the execution history (a `StepRecord`): the deep copies
taken in JS are value copies here. -/
structure StepRecord where
  step : Nat
  page : Page
  isHit : Bool
  frames : List Page
  dataStructures : DataStructures
deriving DecidableEq

/-- The complete state of a `PageReplacementSimulator` instance. -/
structure Simulator where
  referenceString : List Page
  numFrames : Nat
  algorithm : String
  frames : List Page
  pageFaults : Nat
  pageHits : Nat
  history : List StepRecord
  dataStructures : DataStructures
deriving DecidableEq

/-- `initializeAlgorithm()`: allocate the bookkeeping of the selected
algorithm (the `switch` has no default case). -/
def initAlgorithm (s : Simulator) : Simulator :=
  if s.algorithm = "fifo" then
    { s with dataStructures := { s.dataStructures with queue := [] } }
  else if s.algorithm = "lru" then
    { s with dataStructures := { s.dataStructures with recencyList := [] } }
  else if s.algorithm = "optimal" then
    { s with dataStructures :=
        { s.dataStructures with
          futureReferences := calculateFutureReferences s.referenceString } }
  else if s.algorithm = "clock" then
    { s with dataStructures :=
        { s.dataStructures with referenceFlags := [], clockPointer := 0 } }
  else s

/-- Build a simulator from an already parsed reference sequence (the
constructor body after the `split`/`map` line). -/
def mkSimulator (refs : List Page) (numFrames : Nat) (algorithm : String) : Simulator :=
  initAlgorithm
    { referenceString := refs, numFrames := numFrames, algorithm := algorithm,
      frames := [], pageFaults := 0, pageHits := 0, history := [],
      dataStructures := emptyDS }

/-- The constructor: `referenceString.split(",").map((x) => Number.parseInt(x.trim()))`
followed by state initialisation.  It never fails: malformed tokens
become `NaN` entries. -/
def construct (referenceString : String) (numFrames : Nat) (algorithm : String) : Simulator :=
  mkSimulator ((splitCommas referenceString.data).map (fun tok => jsParseInt (trimChars tok)))
    numFrames algorithm

/-- `futureIndices.find((idx) => idx > currentStep) || Number.POSITIVE_INFINITY`.
(The `||` would also send a result `0` to infinity, but the predicate
`idx > currentStep` makes `0` impossible, so only `undefined` is caught.) -/
def optNextIndex (fut : List (Page × List Nat)) (currentStep : Nat) (p : Page) : WithTop Nat :=
  match (futGet fut p).find? (fun idx => decide (currentStep < idx)) with
  | some idx => (idx : WithTop Nat)
  | none => ⊤

/-- The `for (const page of this.frames)` loop of `selectOptimalPage`,
carrying `farthestPage` (an `Option`, since `frames[0]` is `undefined`
on an empty array) and `farthestIndex` (which can become infinity). -/
def selectOptLoop (fut : List (Page × List Nat)) (currentStep : Nat) :
    List Page → Option Page → WithTop Nat → Option Page × WithTop Nat
  | [], fp, fi => (fp, fi)
  | p :: rest, fp, fi =>
    let nextIndex := optNextIndex fut currentStep p
    if fi < nextIndex then selectOptLoop fut currentStep rest (some p) nextIndex
    else selectOptLoop fut currentStep rest fp fi

/-- `selectOptimalPage(currentStep)`: starts from `farthestPage = frames[0]`,
`farthestIndex = currentStep` and scans all frames. -/
def selectOptimalPage (s : Simulator) (currentStep : Nat) : Option Page :=
  (selectOptLoop s.dataStructures.futureReferences currentStep s.frames
    s.frames.head? (currentStep : WithTop Nat)).1

/-- The `while (true)` loop of `selectClockPage`, with fuel.  Each unit of
fuel is one inspection of `frames[clockPointer]`.  An out-of-range pointer
reads `undefined` (`none`), whose reference flag is falsy, so it is
returned as the victim (in that degenerate case, which only occurs with
zero frames, the JS pointer update `(ptr+1) % 0` is `NaN`; the returned
`undefined` victim leaves the frames unchanged either way). -/
def clockScan (fuel : Nat) (frames : List Page) (flags : List (Page × Bool)) (ptr : Nat) :
    Option (Option Page × List (Page × Bool) × Nat) :=
  match fuel with
  | 0 => none
  | fuel' + 1 =>
    match frames.get? ptr with
    | some page =>
      if flagGet flags page then
        clockScan fuel' frames (flagSet flags page false) ((ptr + 1) % frames.length)
      else
        some (some page, flags, (ptr + 1) % frames.length)
    | none => some (none, flags, (ptr + 1) % frames.length)

/-- `selectPageToReplace(currentStep)`: dispatch on the algorithm string.
It returns the chosen victim (`undefined` = `none` when the `switch`
falls through, or when `shift()` runs on an empty array) together with
the state, since FIFO/LRU `shift()` and the clock scan mutate the
bookkeeping.  The clock fuel `2·length+1` is proved sufficient below. -/
def selectPageToReplace (s : Simulator) (currentStep : Nat) : Option Page × Simulator :=
  if s.algorithm = "fifo" then
    match s.dataStructures.queue with
    | [] => (none, s)
    | v :: rest => (some v, { s with dataStructures := { s.dataStructures with queue := rest } })
  else if s.algorithm = "lru" then
    match s.dataStructures.recencyList with
    | [] => (none, s)
    | v :: rest =>
      (some v, { s with dataStructures := { s.dataStructures with recencyList := rest } })
  else if s.algorithm = "optimal" then
    (selectOptimalPage s currentStep, s)
  else if s.algorithm = "clock" then
    match clockScan (2 * s.frames.length + 1) s.frames s.dataStructures.referenceFlags
        s.dataStructures.clockPointer with
    | some (v, flags', ptr') =>
      (v, { s with dataStructures :=
              { s.dataStructures with referenceFlags := flags', clockPointer := ptr' } })
    | none => (none, s)
  else (none, s)

/-- `updateDataStructures(pageNumber, stepIndex, isHit)`.  The LRU filter
uses JS `!==` (strict equality, `Page.seq`). -/
def updateDataStructures (s : Simulator) (pageNumber : Page) (_stepIndex : Nat)
    (isHit : Bool) : Simulator :=
  if s.algorithm = "fifo" then
    if isHit then s
    else { s with dataStructures :=
            { s.dataStructures with queue := s.dataStructures.queue ++ [pageNumber] } }
  else if s.algorithm = "lru" then
    { s with dataStructures :=
        { s.dataStructures with
          recencyList :=
            (s.dataStructures.recencyList.filter (fun p => !(Page.seq p pageNumber)))
              ++ [pageNumber] } }
  else if s.algorithm = "clock" then
    { s with dataStructures :=
        { s.dataStructures with
          referenceFlags := flagSet s.dataStructures.referenceFlags pageNumber true } }
  else s

/-- `processPage(pageNumber, stepIndex)`.  The hit test `frames.includes`
uses SameValueZero (structural) equality; the replacement lookup
`frames.indexOf(pageToReplace)` uses strict equality, and when it fails
(index `-1`, possible only for an `undefined` or `NaN` victim) the JS
assignment `frames[-1] = p` creates an out-of-band property and leaves
the array elements and length unchanged, which we model as leaving
`frames` unchanged. -/
def processPage (s : Simulator) (pageNumber : Page) (stepIndex : Nat) : Simulator :=
  let isHit := s.frames.contains pageNumber
  let s1 :=
    if isHit then
      updateDataStructures { s with pageHits := s.pageHits + 1 } pageNumber stepIndex true
    else
      let sf := { s with pageFaults := s.pageFaults + 1 }
      let sr :=
        if sf.frames.length < sf.numFrames then
          { sf with frames := sf.frames ++ [pageNumber] }
        else
          match selectPageToReplace sf stepIndex with
          | (some v, t) =>
            match t.frames.findIdx? (fun q => Page.seq q v) with
            | some i => { t with frames := t.frames.set i pageNumber }
            | none => t
          | (none, t) => t
      updateDataStructures sr pageNumber stepIndex false
  { s1 with history := s1.history ++
      [{ step := stepIndex, page := pageNumber, isHit := isHit,
         frames := s1.frames, dataStructures := s1.dataStructures }] }

/-- The `for` loop of `simulate()`: process the given references starting
at step index `i`. -/
def processList : Simulator → Nat → List Page → Simulator
  | s, _, [] => s
  | s, i, p :: rest => processList (processPage s p i) (i + 1) rest

/-- `simulate()`: process every reference of the parsed sequence. -/
def Simulator.simulate (s : Simulator) : Simulator :=
  processList s 0 s.referenceString

/-- The state after processing only the first `k` references (the
"point during a simulation" of the invariant claims). -/
def simulateSteps (s : Simulator) (k : Nat) : Simulator :=
  processList s 0 (s.referenceString.take k)

/-- The result object of `getStatistics()`. -/
structure Statistics where
  pageFaults : Nat
  pageHits : Nat
  hitRatio : Rat
  totalReferences : Nat
deriving DecidableEq

/-- `getStatistics()`.  JS renders the ratio with `toFixed(2)` for
display; the value itself is modelled exactly, and is the number `0`
(not a string) when `total` is `0`. -/
def getStatistics (s : Simulator) : Statistics :=
  let total := s.pageFaults + s.pageHits
  { pageFaults := s.pageFaults, pageHits := s.pageHits,
    hitRatio := if 0 < total then ((s.pageHits : Rat) / (total : Rat)) * 100 else 0,
    totalReferences := total }

/-!
## Specification-side definitions

These render the spec's wording (next-occurrence indices, last-access
indices) independently of the simulator's bookkeeping.
-/

/-- First index `≥ i` (scanning `l` whose head sits at absolute index `i`)
that is strictly greater than `t` and holds page `q`; `⊤` if none. -/
def nextOccurrenceAux : List Page → Nat → Nat → Page → WithTop Nat
  | [], _, _, _ => ⊤
  | p :: rest, i, t, q =>
    if p = q ∧ t < i then (i : WithTop Nat) else nextOccurrenceAux rest (i + 1) t q

/-- The next occurrence index of page `q` in the reference sequence that
is strictly greater than the step index `t` (`⊤` when `q` never recurs). -/
def nextOccInRefs (refs : List Page) (t : Nat) (q : Page) : WithTop Nat :=
  nextOccurrenceAux refs 0 t q

/-- The last index `< k` at which page `q` is referenced (`⊥` when it has
not been referenced yet): the spec's access recency. -/
def lastAccess (refs : List Page) (k : Nat) (q : Page) : WithBot Nat :=
  ((List.range k).filter (fun j => decide (refs.getD j Page.nan = q))).maximum

/-!
## Basic lemmas about the simulator's fields
-/

theorem initAlgorithm_fields (s : Simulator) :
    (initAlgorithm s).referenceString = s.referenceString ∧
    (initAlgorithm s).numFrames = s.numFrames ∧
    (initAlgorithm s).algorithm = s.algorithm ∧
    (initAlgorithm s).frames = s.frames ∧
    (initAlgorithm s).pageFaults = s.pageFaults ∧
    (initAlgorithm s).pageHits = s.pageHits ∧
    (initAlgorithm s).history = s.history := by
  unfold initAlgorithm
  repeat' split
  all_goals exact ⟨rfl, rfl, rfl, rfl, rfl, rfl, rfl⟩

@[simp] theorem initAlgorithm_referenceString (s : Simulator) :
    (initAlgorithm s).referenceString = s.referenceString := (initAlgorithm_fields s).1

@[simp] theorem initAlgorithm_numFrames (s : Simulator) :
    (initAlgorithm s).numFrames = s.numFrames := (initAlgorithm_fields s).2.1

@[simp] theorem initAlgorithm_algorithm (s : Simulator) :
    (initAlgorithm s).algorithm = s.algorithm := (initAlgorithm_fields s).2.2.1

@[simp] theorem initAlgorithm_frames (s : Simulator) :
    (initAlgorithm s).frames = s.frames := (initAlgorithm_fields s).2.2.2.1

@[simp] theorem initAlgorithm_pageFaults (s : Simulator) :
    (initAlgorithm s).pageFaults = s.pageFaults := (initAlgorithm_fields s).2.2.2.2.1

@[simp] theorem initAlgorithm_pageHits (s : Simulator) :
    (initAlgorithm s).pageHits = s.pageHits := (initAlgorithm_fields s).2.2.2.2.2.1

@[simp] theorem initAlgorithm_history (s : Simulator) :
    (initAlgorithm s).history = s.history := (initAlgorithm_fields s).2.2.2.2.2.2

theorem updateDS_fields (s : Simulator) (p : Page) (i : Nat) (b : Bool) :
    (updateDataStructures s p i b).referenceString = s.referenceString ∧
    (updateDataStructures s p i b).numFrames = s.numFrames ∧
    (updateDataStructures s p i b).algorithm = s.algorithm ∧
    (updateDataStructures s p i b).frames = s.frames ∧
    (updateDataStructures s p i b).pageFaults = s.pageFaults ∧
    (updateDataStructures s p i b).pageHits = s.pageHits ∧
    (updateDataStructures s p i b).history = s.history := by
  unfold updateDataStructures
  repeat' split
  all_goals exact ⟨rfl, rfl, rfl, rfl, rfl, rfl, rfl⟩

@[simp] theorem updateDS_referenceString (s : Simulator) (p : Page) (i : Nat) (b : Bool) :
    (updateDataStructures s p i b).referenceString = s.referenceString :=
  (updateDS_fields s p i b).1

@[simp] theorem updateDS_numFrames (s : Simulator) (p : Page) (i : Nat) (b : Bool) :
    (updateDataStructures s p i b).numFrames = s.numFrames := (updateDS_fields s p i b).2.1

@[simp] theorem updateDS_algorithm (s : Simulator) (p : Page) (i : Nat) (b : Bool) :
    (updateDataStructures s p i b).algorithm = s.algorithm := (updateDS_fields s p i b).2.2.1

@[simp] theorem updateDS_frames (s : Simulator) (p : Page) (i : Nat) (b : Bool) :
    (updateDataStructures s p i b).frames = s.frames := (updateDS_fields s p i b).2.2.2.1

@[simp] theorem updateDS_pageFaults (s : Simulator) (p : Page) (i : Nat) (b : Bool) :
    (updateDataStructures s p i b).pageFaults = s.pageFaults :=
  (updateDS_fields s p i b).2.2.2.2.1

@[simp] theorem updateDS_pageHits (s : Simulator) (p : Page) (i : Nat) (b : Bool) :
    (updateDataStructures s p i b).pageHits = s.pageHits :=
  (updateDS_fields s p i b).2.2.2.2.2.1

@[simp] theorem updateDS_history (s : Simulator) (p : Page) (i : Nat) (b : Bool) :
    (updateDataStructures s p i b).history = s.history := (updateDS_fields s p i b).2.2.2.2.2.2

theorem selectPTR_fields (s : Simulator) (i : Nat) :
    (selectPageToReplace s i).2.referenceString = s.referenceString ∧
    (selectPageToReplace s i).2.numFrames = s.numFrames ∧
    (selectPageToReplace s i).2.algorithm = s.algorithm ∧
    (selectPageToReplace s i).2.frames = s.frames ∧
    (selectPageToReplace s i).2.pageFaults = s.pageFaults ∧
    (selectPageToReplace s i).2.pageHits = s.pageHits ∧
    (selectPageToReplace s i).2.history = s.history := by
  unfold selectPageToReplace
  repeat' split
  all_goals exact ⟨rfl, rfl, rfl, rfl, rfl, rfl, rfl⟩

@[simp] theorem selectPTR_referenceString (s : Simulator) (i : Nat) :
    (selectPageToReplace s i).2.referenceString = s.referenceString := (selectPTR_fields s i).1

@[simp] theorem selectPTR_numFrames (s : Simulator) (i : Nat) :
    (selectPageToReplace s i).2.numFrames = s.numFrames := (selectPTR_fields s i).2.1

@[simp] theorem selectPTR_algorithm (s : Simulator) (i : Nat) :
    (selectPageToReplace s i).2.algorithm = s.algorithm := (selectPTR_fields s i).2.2.1

@[simp] theorem selectPTR_frames (s : Simulator) (i : Nat) :
    (selectPageToReplace s i).2.frames = s.frames := (selectPTR_fields s i).2.2.2.1

@[simp] theorem selectPTR_pageFaults (s : Simulator) (i : Nat) :
    (selectPageToReplace s i).2.pageFaults = s.pageFaults := (selectPTR_fields s i).2.2.2.2.1

@[simp] theorem selectPTR_pageHits (s : Simulator) (i : Nat) :
    (selectPageToReplace s i).2.pageHits = s.pageHits := (selectPTR_fields s i).2.2.2.2.2.1

@[simp] theorem selectPTR_history (s : Simulator) (i : Nat) :
    (selectPageToReplace s i).2.history = s.history := (selectPTR_fields s i).2.2.2.2.2.2

/-- Full effect of one `processPage` step on everything except the
algorithm-specific bookkeeping: exactly one of the two counters grows by
one, exactly one `StepRecord` (snapshotting the current frames and
bookkeeping) is appended, and the frame count grows only when there was
an unused frame. -/
theorem processPage_spec (s : Simulator) (p : Page) (i : Nat) :
    (processPage s p i).referenceString = s.referenceString ∧
    (processPage s p i).numFrames = s.numFrames ∧
    (processPage s p i).algorithm = s.algorithm ∧
    (processPage s p i).pageFaults = s.pageFaults + (if s.frames.contains p then 0 else 1) ∧
    (processPage s p i).pageHits = s.pageHits + (if s.frames.contains p then 1 else 0) ∧
    (processPage s p i).history = s.history ++
      [{ step := i, page := p, isHit := s.frames.contains p,
         frames := (processPage s p i).frames,
         dataStructures := (processPage s p i).dataStructures }] ∧
    ((processPage s p i).frames.length = s.frames.length ∨
      ((processPage s p i).frames.length = s.frames.length + 1 ∧
        s.frames.length < s.numFrames)) := by
  simp only [processPage]
  split
  · rename_i h
    have hm : p ∈ s.frames := by simpa using h
    simp [h, hm]
  · rename_i h
    have h' : s.frames.contains p = false := by simpa using h
    have hm : p ∉ s.frames := by simpa using h'
    split
    · rename_i hlen
      simp [h', hm, hlen]
    · split
      · rename_i v t heq
        have hsnd := congrArg Prod.snd heq
        simp only at hsnd
        subst hsnd
        split
        · simp [h', hm]
        · simp [h', hm]
      · rename_i t heq
        have hsnd := congrArg Prod.snd heq
        simp only at hsnd
        subst hsnd
        simp [h', hm]

theorem mkSimulator_fields (refs : List Page) (F : Nat) (alg : String) :
    (mkSimulator refs F alg).referenceString = refs ∧
    (mkSimulator refs F alg).numFrames = F ∧
    (mkSimulator refs F alg).algorithm = alg ∧
    (mkSimulator refs F alg).frames = [] ∧
    (mkSimulator refs F alg).pageFaults = 0 ∧
    (mkSimulator refs F alg).pageHits = 0 ∧
    (mkSimulator refs F alg).history = [] := by
  unfold mkSimulator
  refine ⟨?_, ?_, ?_, ?_, ?_, ?_, ?_⟩ <;> simp

@[simp] theorem mkSimulator_referenceString (refs : List Page) (F : Nat) (alg : String) :
    (mkSimulator refs F alg).referenceString = refs := (mkSimulator_fields refs F alg).1

@[simp] theorem mkSimulator_numFrames (refs : List Page) (F : Nat) (alg : String) :
    (mkSimulator refs F alg).numFrames = F := (mkSimulator_fields refs F alg).2.1

@[simp] theorem mkSimulator_algorithm (refs : List Page) (F : Nat) (alg : String) :
    (mkSimulator refs F alg).algorithm = alg := (mkSimulator_fields refs F alg).2.2.1

@[simp] theorem mkSimulator_frames (refs : List Page) (F : Nat) (alg : String) :
    (mkSimulator refs F alg).frames = [] := (mkSimulator_fields refs F alg).2.2.2.1

@[simp] theorem mkSimulator_pageFaults (refs : List Page) (F : Nat) (alg : String) :
    (mkSimulator refs F alg).pageFaults = 0 := (mkSimulator_fields refs F alg).2.2.2.2.1

@[simp] theorem mkSimulator_pageHits (refs : List Page) (F : Nat) (alg : String) :
    (mkSimulator refs F alg).pageHits = 0 := (mkSimulator_fields refs F alg).2.2.2.2.2.1

@[simp] theorem mkSimulator_history (refs : List Page) (F : Nat) (alg : String) :
    (mkSimulator refs F alg).history = [] := (mkSimulator_fields refs F alg).2.2.2.2.2.2

/-- Aggregate effect of processing a list of references: the two counters
together grow by its length, the history grows by its length, and the
configuration fields are untouched. -/
theorem processList_counts : ∀ (l : List Page) (s : Simulator) (i : Nat),
    (processList s i l).pageHits + (processList s i l).pageFaults
      = s.pageHits + s.pageFaults + l.length ∧
    (processList s i l).history.length = s.history.length + l.length ∧
    (processList s i l).referenceString = s.referenceString ∧
    (processList s i l).numFrames = s.numFrames ∧
    (processList s i l).algorithm = s.algorithm := by
  intro l
  induction l with
  | nil => intro s i; simp [processList]
  | cons p rest ih =>
    intro s i
    obtain ⟨h1, h2, h3, h4, h5, h6, _⟩ := processPage_spec s p i
    obtain ⟨g1, g2, g3, g4, g5⟩ := ih (processPage s p i) (i + 1)
    have hstep : processList s i (p :: rest) = processList (processPage s p i) (i + 1) rest := rfl
    rw [hstep]
    refine ⟨?_, ?_, ?_, ?_, ?_⟩
    · rw [g1, h4, h5]
      cases hc : s.frames.contains p <;> simp <;> omega
    · rw [g2, h6]
      simp [List.length_append]
      omega
    · rw [g3, h1]
    · rw [g4, h2]
    · rw [g5, h3]

/-- The frame-capacity invariant is preserved by processing any list of
references. -/
theorem processList_frames_bound : ∀ (l : List Page) (s : Simulator) (i : Nat),
    s.frames.length ≤ s.numFrames →
    (∀ r ∈ s.history, r.frames.length ≤ s.numFrames) →
    (processList s i l).frames.length ≤ s.numFrames ∧
    ∀ r ∈ (processList s i l).history, r.frames.length ≤ s.numFrames := by
  intro l
  induction l with
  | nil => intro s i h1 h2; exact ⟨h1, h2⟩
  | cons p rest ih =>
    intro s i h1 h2
    obtain ⟨_, hnf, _, _, _, hhist, hlen⟩ := processPage_spec s p i
    have hfr : (processPage s p i).frames.length ≤ s.numFrames := by
      rcases hlen with h | ⟨h, hlt⟩
      · omega
      · omega
    have hrec : ∀ r ∈ (processPage s p i).history, r.frames.length ≤ s.numFrames := by
      intro r hr
      rw [hhist] at hr
      rcases List.mem_append.1 hr with hm | hm
      · exact h2 r hm
      · simp at hm
        subst hm
        exact hfr
    have hstep : processList s i (p :: rest) = processList (processPage s p i) (i + 1) rest := rfl
    rw [hstep]
    have := ih (processPage s p i) (i + 1) (by rw [hnf]; exact hfr)
      (by rw [hnf]; exact hrec)
    rw [hnf] at this
    exact this

/-- **C1**: at every point during a simulation (after each processed
reference) the hit count plus the fault count equals the number of
`StepRecord`s in the history, and after `simulate()` completes the sum
equals the length of the parsed reference sequence. -/
theorem c1_counts_match_history (input : String) (F : Nat) (alg : String) (k : Nat) :
    ((simulateSteps (construct input F alg) k).pageHits
        + (simulateSteps (construct input F alg) k).pageFaults
      = (simulateSteps (construct input F alg) k).history.length)
    ∧ (construct input F alg).simulate.pageHits
        + (construct input F alg).simulate.pageFaults
      = (construct input F alg).referenceString.length := by
  constructor
  · obtain ⟨h1, h2, _, _, _⟩ :=
      processList_counts ((construct input F alg).referenceString.take k)
        (construct input F alg) 0
    unfold simulateSteps
    rw [h1, h2]
    simp [construct]
  · obtain ⟨h1, _, _, _, _⟩ :=
      processList_counts (construct input F alg).referenceString (construct input F alg) 0
    unfold Simulator.simulate
    rw [h1]
    simp [construct]

/-- **C2**: with a configured frame count `F ≥ 1`, the frame set never
holds more than `F` pages: after any number of processed references both
the live frames array and every recorded `StepRecord` snapshot have
length at most `F`. -/
theorem c2_frames_never_exceed (input : String) (F : Nat) (alg : String)
    (hF : 1 ≤ F) (k : Nat) :
    (simulateSteps (construct input F alg) k).frames.length ≤ F ∧
    ∀ r ∈ (simulateSteps (construct input F alg) k).history, r.frames.length ≤ F := by
  have h0 : (construct input F alg).frames.length ≤ (construct input F alg).numFrames := by
    simp [construct]
  have h0' : ∀ r ∈ (construct input F alg).history,
      r.frames.length ≤ (construct input F alg).numFrames := by
    simp [construct]
  have := processList_frames_bound ((construct input F alg).referenceString.take k)
    (construct input F alg) 0 h0 h0'
  unfold simulateSteps
  simpa [construct] using this

/-- Witness for `c2_frames_never_exceed` at a concrete input. -/
theorem c2_frames_never_exceed_witness :
    (simulateSteps (construct "1,2,3,4" 2 "fifo") 3).frames.length ≤ 2 ∧
    ∀ r ∈ (simulateSteps (construct "1,2,3,4" 2 "fifo") 3).history, r.frames.length ≤ 2 :=
  c2_frames_never_exceed "1,2,3,4" 2 "fifo" (by decide) 3

/-- **C5**: FIFO on the Belady sequence `1,2,3,4,1,2,5,1,2,3,4,5` incurs
exactly 9 faults with 3 frames and exactly 10 faults with 4 frames. -/
theorem c5_fifo_belady_anomaly :
    (construct "1,2,3,4,1,2,5,1,2,3,4,5" 3 "fifo").simulate.pageFaults = 9 ∧
    (construct "1,2,3,4,1,2,5,1,2,3,4,5" 4 "fifo").simulate.pageFaults = 10 := by
  decide

/-- Processing any references with a zero frame capacity never makes a
page resident (the replacement index lookup fails on an empty array), so
every reference faults. -/
theorem processList_zero_capacity : ∀ (l : List Page) (s : Simulator) (i : Nat),
    s.numFrames = 0 → s.frames = [] →
    (processList s i l).frames = [] ∧
    (processList s i l).pageFaults = s.pageFaults + l.length ∧
    (processList s i l).pageHits = s.pageHits := by
  intro l
  induction l with
  | nil => intro s i _ _; simpa [processList]
  | cons p rest ih =>
    intro s i hF hfr
    obtain ⟨_, hnf, _, hfaults, hhits, _, hlen⟩ := processPage_spec s p i
    have hcont : s.frames.contains p = false := by rw [hfr]; rfl
    have hfr' : (processPage s p i).frames = [] := by
      rcases hlen with h | ⟨_, hlt⟩
      · rw [hfr] at h
        exact List.length_eq_zero.1 h
      · rw [hfr, hF] at hlt
        simp at hlt
    have hstep : processList s i (p :: rest) = processList (processPage s p i) (i + 1) rest := rfl
    rw [hstep]
    obtain ⟨g1, g2, g3⟩ := ih (processPage s p i) (i + 1) (by rw [hnf, hF]) hfr'
    refine ⟨g1, ?_, ?_⟩
    · rw [g2, hfaults, hcont]
      simp [List.length_cons]
      omega
    · rw [g3, hhits, hcont]
      simp

/-- **C7** counterexample: constructing from an input with a non-integer
token does not fail; the token parses to `NaN` and the simulation runs. -/
theorem c7_counterexample :
    (construct "a,1" 3 "fifo").referenceString = [Page.nan, Page.int 1] ∧
    (construct "a,1" 3 "fifo").simulate.history.length = 2 := by
  decide

/-- **C7 (amended)**: parsing never fails — every token (integer or not)
yields one entry of the reference sequence, and `simulate()` always runs
over all of them: the counters and the history both account for exactly
one step per token of the input. -/
theorem c7_no_parse_failure (input : String) (F : Nat) (alg : String) :
    (construct input F alg).simulate.pageHits + (construct input F alg).simulate.pageFaults
      = (splitCommas input.data).length ∧
    (construct input F alg).simulate.history.length = (splitCommas input.data).length := by
  obtain ⟨h1, h2, _, _, _⟩ :=
    processList_counts (construct input F alg).referenceString (construct input F alg) 0
  unfold Simulator.simulate
  rw [h1, h2]
  simp [construct]

/-- **C8** counterexample: a frame count below 1 and an unrecognized
algorithm selector are both accepted by the constructor; the simulation
runs (with zero frames nothing ever becomes resident). -/
theorem c8_counterexample :
    (construct "1,2" 0 "fifo").simulate.pageFaults = 2 ∧
    (construct "1,2" 0 "fifo").simulate.frames = [] ∧
    (construct "1,2" 3 "nonsense").simulate.history.length = 2 ∧
    (construct "1,2" 3 "nonsense").simulate.pageFaults = 2 := by
  decide

/-- **C8 (amended)**: the constructor performs no configuration
validation: any frame count and algorithm string are accepted and
`simulate()` runs to completion.  In particular with frame count `0`
(out of the spec's range) no page ever becomes resident and every
reference faults, for every algorithm selector. -/
theorem c8_no_config_validation (input : String) (alg : String) :
    (construct input 0 alg).simulate.frames = [] ∧
    (construct input 0 alg).simulate.pageFaults = (splitCommas input.data).length ∧
    (construct input 0 alg).simulate.pageHits = 0 := by
  have h := processList_zero_capacity (construct input 0 alg).referenceString
    (construct input 0 alg) 0 (by simp [construct]) (by simp [construct])
  unfold Simulator.simulate
  obtain ⟨h1, h2, h3⟩ := h
  refine ⟨h1, ?_, ?_⟩
  · rw [h2]
    simp [construct]
  · rw [h3]
    simp [construct]

/-- **C9** counterexample: empty reference input does not yield an empty
reference sequence — `"".split(",")` is `[""]` and `parseInt("")` is
`NaN`, so the sequence is `[NaN]`, and simulating it produces one fault
and a one-entry history. -/
theorem c9_counterexample :
    (construct "" 3 "fifo").referenceString = [Page.nan] ∧
    (construct "" 3 "fifo").simulate.pageFaults = 1 ∧
    (construct "" 3 "fifo").simulate.pageHits = 0 ∧
    (construct "" 3 "fifo").simulate.history.length = 1 := by
  decide

/-- **C9 (amended)**: constructing the engine with empty reference input
yields the one-element sequence `[NaN]`, and simulating it produces one
fault, zero hits, hit ratio `0`, and a one-entry history — for every
frame count and algorithm selector. -/
theorem c9_empty_input (F : Nat) (alg : String) :
    (construct "" F alg).referenceString = [Page.nan] ∧
    (construct "" F alg).simulate.pageFaults = 1 ∧
    (construct "" F alg).simulate.pageHits = 0 ∧
    (getStatistics (construct "" F alg).simulate).hitRatio = 0 ∧
    (construct "" F alg).simulate.history.length = 1 := by
  have hrefs : (construct "" F alg).referenceString = [Page.nan] := by
    unfold construct
    rw [mkSimulator_referenceString]
    decide
  have hsim : (construct "" F alg).simulate = processPage (construct "" F alg) Page.nan 0 := by
    unfold Simulator.simulate
    rw [hrefs]
    rfl
  have hcont : (construct "" F alg).frames.contains Page.nan = false := by
    have : (construct "" F alg).frames = [] := by simp [construct]
    rw [this]
    rfl
  obtain ⟨_, _, _, hfaults, hhits, hhist, _⟩ :=
    processPage_spec (construct "" F alg) Page.nan 0
  rw [hcont] at hfaults hhits
  simp only [Bool.false_eq_true, if_false, if_true] at hfaults hhits
  have hf : (construct "" F alg).simulate.pageFaults = 1 := by
    rw [hsim, hfaults]
    simp [construct]
  have hh : (construct "" F alg).simulate.pageHits = 0 := by
    rw [hsim, hhits]
    simp [construct]
  refine ⟨hrefs, hf, hh, ?_, ?_⟩
  · unfold getStatistics
    rw [hf, hh]
    norm_num
  · rw [hsim, hhist]
    simp [construct]

/-!
## Lemmas about the JS-object models and the Optimal eviction rule
-/

theorem find?_congr {α : Type _} (l : List α) (p q : α → Bool)
    (h : ∀ a ∈ l, p a = q a) : l.find? p = l.find? q := by
  induction l with
  | nil => rfl
  | cons a l ih =>
    have ha := h a (List.mem_cons_self a l)
    by_cases hp : p a = true
    · rw [List.find?_cons_of_pos l hp, List.find?_cons_of_pos l (ha ▸ hp)]
    · rw [List.find?_cons_of_neg l hp, List.find?_cons_of_neg l (by rw [← ha]; exact hp)]
      exact ih fun b hb => h b (List.mem_cons_of_mem a hb)

theorem any_key_find {β : Type _} (m : List (Page × β)) (p : Page)
    (h : m.any (fun e => decide (e.1 = p)) = true) :
    ∃ e, m.find? (fun e => decide (e.1 = p)) = some e ∧ e.1 = p := by
  have hs : (m.find? (fun e => decide (e.1 = p))).isSome := by
    rw [List.find?_isSome]
    simpa [List.any_eq_true] using h
  obtain ⟨e, he⟩ := Option.isSome_iff_exists.1 hs
  refine ⟨e, he, ?_⟩
  have := List.find?_some he
  simpa using this

theorem find?_map_keyfix {β : Type _} (m : List (Page × β)) (f : Page × β → Page × β)
    (hf : ∀ e, (f e).1 = e.1) (q : Page) :
    (m.map f).find? (fun e => decide (e.1 = q))
      = (m.find? (fun e => decide (e.1 = q))).map f := by
  rw [List.find?_map]
  congr 1
  apply find?_congr
  intro a _
  simp [Function.comp, hf a]

/-- Effect of a JS flag assignment on later lookups. -/
theorem flagGet_flagSet (m : List (Page × Bool)) (p : Page) (b : Bool) (q : Page) :
    flagGet (flagSet m p b) q = if q = p then b else flagGet m q := by
  unfold flagSet flagGet
  by_cases hpres : m.any (fun e => decide (e.1 = p)) = true
  · rw [if_pos hpres, find?_map_keyfix _ _ (by intro e; by_cases he : e.1 = p <;> simp [he])]
    by_cases hq : q = p
    · subst hq
      obtain ⟨e, he, hkey⟩ := any_key_find m q hpres
      rw [he]
      simp [hkey]
    · rw [if_neg hq]
      cases hfind : m.find? (fun e => decide (e.1 = q)) with
      | none => simp
      | some e =>
        have hkey : e.1 = q := by simpa using List.find?_some hfind
        simp [hkey, hq]
  · rw [if_neg hpres, List.find?_append]
    have hnone : m.find? (fun e => decide (e.1 = p)) = none := by
      rw [List.find?_eq_none]
      intro e he hc
      apply hpres
      rw [List.any_eq_true]
      exact ⟨e, he, hc⟩
    by_cases hq : q = p
    · subst hq
      rw [hnone]
      simp
    · cases hfind : m.find? (fun e => decide (e.1 = q)) with
      | none => simp [hfind, hq, Ne.symm hq]
      | some e => simp [hfind, hq]

/-- Effect of one `futureRefs[page].push(i)` on later lookups. -/
theorem futGet_futPush (m : List (Page × List Nat)) (p : Page) (i : Nat) (q : Page) :
    futGet (futPush m p i) q = if q = p then futGet m q ++ [i] else futGet m q := by
  unfold futPush futGet
  by_cases hpres : m.any (fun e => decide (e.1 = p)) = true
  · rw [if_pos hpres, find?_map_keyfix _ _ (by intro e; by_cases he : e.1 = p <;> simp [he])]
    by_cases hq : q = p
    · subst hq
      obtain ⟨e, he, hkey⟩ := any_key_find m q hpres
      rw [he]
      simp [hkey]
    · rw [if_neg hq]
      cases hfind : m.find? (fun e => decide (e.1 = q)) with
      | none => simp
      | some e =>
        have hkey : e.1 = q := by simpa using List.find?_some hfind
        simp [hkey, hq]
  · rw [if_neg hpres, List.find?_append]
    have hnone : m.find? (fun e => decide (e.1 = p)) = none := by
      rw [List.find?_eq_none]
      intro e he hc
      apply hpres
      rw [List.any_eq_true]
      exact ⟨e, he, hc⟩
    by_cases hq : q = p
    · subst hq
      rw [hnone]
      simp
    · cases hfind : m.find? (fun e => decide (e.1 = q)) with
      | none => simp [hfind, hq, Ne.symm hq]
      | some e => simp [hfind, hq]

/-- The ascending list of indices (counted from `i`) at which page `q`
occurs in `l`: the contents of the future-occurrence map. -/
def occIdx : List Page → Nat → Page → List Nat
  | [], _, _ => []
  | p :: rest, i, q => (if p = q then [i] else []) ++ occIdx rest (i + 1) q

theorem futGet_calcFutureGo : ∀ (l : List Page) (i : Nat) (m : List (Page × List Nat)) (q : Page),
    futGet (calcFutureGo l i m) q = futGet m q ++ occIdx l i q := by
  intro l
  induction l with
  | nil => intro i m q; simp [calcFutureGo, occIdx]
  | cons p rest ih =>
    intro i m q
    show futGet (calcFutureGo rest (i + 1) (futPush m p i)) q = _
    rw [ih, futGet_futPush]
    by_cases h : q = p
    · subst h
      simp [occIdx]
    · have h' : ¬p = q := fun hc => h hc.symm
      simp [occIdx, h, h']

/-- The future-occurrence map built by `calculateFutureReferences` holds,
for each page, exactly its ascending occurrence indices. -/
theorem futGet_calc (refs : List Page) (q : Page) :
    futGet (calculateFutureReferences refs) q = occIdx refs 0 q := by
  unfold calculateFutureReferences
  rw [futGet_calcFutureGo]
  simp [futGet]

/-- Searching the occurrence list for the first index above `t` computes
the next occurrence of the page. -/
theorem occIdx_find_next : ∀ (l : List Page) (i t : Nat) (q : Page),
    (match (occIdx l i q).find? (fun idx => decide (t < idx)) with
      | some idx => (idx : WithTop Nat)
      | none => ⊤) = nextOccurrenceAux l i t q := by
  intro l
  induction l with
  | nil => intro i t q; rfl
  | cons p rest ih =>
    intro i t q
    show (match ((if p = q then [i] else []) ++ occIdx rest (i + 1) q).find?
        (fun idx => decide (t < idx)) with
      | some idx => (idx : WithTop Nat)
      | none => ⊤) = nextOccurrenceAux (p :: rest) i t q
    unfold nextOccurrenceAux
    by_cases hpq : p = q
    · rw [if_pos hpq]
      by_cases ht : t < i
      · rw [List.singleton_append, List.find?_cons_of_pos _ (by simpa using ht)]
        rw [if_pos ⟨hpq, ht⟩]
      · rw [List.singleton_append, List.find?_cons_of_neg _ (by simpa using ht)]
        rw [if_neg (by rintro ⟨-, hc⟩; exact ht hc)]
        exact ih (i + 1) t q
    · rw [if_neg hpq, List.nil_append, if_neg (by rintro ⟨hc, -⟩; exact hpq hc)]
      exact ih (i + 1) t q

/-- On a simulator whose future map was built from the reference string,
the `nextIndex` computed by `selectOptimalPage` is the next occurrence of
the page in the reference sequence. -/
theorem optNextIndex_calc (refs : List Page) (t : Nat) (p : Page) :
    optNextIndex (calculateFutureReferences refs) t p = nextOccInRefs refs t p := by
  unfold optNextIndex nextOccInRefs
  rw [futGet_calc]
  exact occIdx_find_next refs 0 t p

/-- Every next occurrence is strictly beyond the current step. -/
theorem lt_nextOccurrenceAux : ∀ (l : List Page) (i t : Nat) (q : Page),
    (t : WithTop Nat) < nextOccurrenceAux l i t q := by
  intro l
  induction l with
  | nil => intro i t q; exact WithTop.coe_lt_top t
  | cons p rest ih =>
    intro i t q
    unfold nextOccurrenceAux
    split
    · next h => exact_mod_cast h.2
    · exact ih (i + 1) t q

theorem exists_arg_max {α γ : Type _} [LinearOrder γ] (f : α → γ) :
    ∀ (l : List α), l ≠ [] → ∃ p ∈ l, ∀ q ∈ l, f q ≤ f p := by
  intro l
  induction l with
  | nil => intro h; exact absurd rfl h
  | cons a l ih =>
    intro _
    rcases eq_or_ne l [] with rfl | hne
    · exact ⟨a, List.mem_cons_self a [], by simp⟩
    · obtain ⟨p, hp, hmax⟩ := ih hne
      by_cases hc : f a ≤ f p
      · refine ⟨p, List.mem_cons_of_mem a hp, ?_⟩
        intro q hq
        rcases List.mem_cons.1 hq with rfl | hq
        · exact hc
        · exact hmax q hq
      · refine ⟨a, List.mem_cons_self a l, ?_⟩
        intro q hq
        rcases List.mem_cons.1 hq with rfl | hq
        · exact le_refl _
        · exact (hmax q hq).trans (not_le.1 hc).le

/-- The strict-improvement scan of `selectOptimalPage` returns the first
element attaining the maximum (among those beating the initial
`farthestIndex`), or the initial `farthestPage` when none does. -/
theorem selectOptLoop_spec (fut : List (Page × List Nat)) (t : Nat) :
    ∀ (l : List Page) (fp : Option Page) (fi : WithTop Nat),
      (selectOptLoop fut t l fp fi).1 =
        (l.find? (fun p => decide (fi < optNextIndex fut t p)
            && decide (∀ q ∈ l, optNextIndex fut t q ≤ optNextIndex fut t p))).or fp := by
  intro l
  induction l with
  | nil => intro fp fi; rfl
  | cons p rest ih =>
    intro fp fi
    show (if fi < optNextIndex fut t p then
            selectOptLoop fut t rest (some p) (optNextIndex fut t p)
          else selectOptLoop fut t rest fp fi).1 = _
    by_cases hfi : fi < optNextIndex fut t p
    · rw [if_pos hfi, ih]
      by_cases hall : ∀ q ∈ rest, optNextIndex fut t q ≤ optNextIndex fut t p
      · have houter := List.find?_cons_of_pos (p := fun r =>
            decide (fi < optNextIndex fut t r)
              && decide (∀ q ∈ p :: rest, optNextIndex fut t q ≤ optNextIndex fut t r))
          (a := p) rest (by
            simp only [Bool.and_eq_true, decide_eq_true_eq]
            exact ⟨hfi, by
              intro q hq
              rcases List.mem_cons.1 hq with rfl | hq
              · exact le_refl _
              · exact hall q hq⟩)
        rw [houter]
        have hinner : rest.find? (fun r =>
            decide (optNextIndex fut t p < optNextIndex fut t r)
              && decide (∀ q ∈ rest, optNextIndex fut t q ≤ optNextIndex fut t r)) = none := by
          rw [List.find?_eq_none]
          intro r hr hc
          simp only [Bool.and_eq_true, decide_eq_true_eq] at hc
          exact absurd hc.1 (not_lt.2 (hall r hr))
        rw [hinner]
        rfl
      · obtain ⟨q0, hq0m, hq0⟩ : ∃ q ∈ rest, optNextIndex fut t p < optNextIndex fut t q := by
          push_neg at hall
          obtain ⟨q0, h1, h2⟩ := hall
          exact ⟨q0, h1, h2⟩
        have hrne : rest ≠ [] := by
          rintro rfl
          exact absurd hq0m (List.not_mem_nil q0)
        have hcong : rest.find? (fun r =>
            decide (optNextIndex fut t p < optNextIndex fut t r)
              && decide (∀ q ∈ rest, optNextIndex fut t q ≤ optNextIndex fut t r))
            = rest.find? (fun r =>
            decide (fi < optNextIndex fut t r)
              && decide (∀ q ∈ p :: rest, optNextIndex fut t q ≤ optNextIndex fut t r)) := by
          apply find?_congr
          intro r hr
          rw [← Bool.decide_and, ← Bool.decide_and, decide_eq_decide]
          constructor
          · rintro ⟨h1, h2⟩
            refine ⟨hfi.trans h1, ?_⟩
            intro q hq
            rcases List.mem_cons.1 hq with rfl | hq
            · exact h1.le
            · exact h2 q hq
          · rintro ⟨h1, h2⟩
            refine ⟨lt_of_lt_of_le hq0 (h2 q0 (List.mem_cons_of_mem p hq0m)), ?_⟩
            intro q hq
            exact h2 q (List.mem_cons_of_mem p hq)
        obtain ⟨rstar, hrm, hrmax⟩ := exists_arg_max (optNextIndex fut t) rest hrne
        have hsome : (rest.find? (fun r =>
            decide (optNextIndex fut t p < optNextIndex fut t r)
              && decide (∀ q ∈ rest, optNextIndex fut t q ≤ optNextIndex fut t r))).isSome := by
          rw [List.find?_isSome]
          refine ⟨rstar, hrm, ?_⟩
          simp only [Bool.and_eq_true, decide_eq_true_eq]
          exact ⟨lt_of_lt_of_le hq0 (hrmax q0 hq0m), hrmax⟩
        obtain ⟨r, hr⟩ := Option.isSome_iff_exists.1 hsome
        have hhead : ¬ ((fun r =>
            decide (fi < optNextIndex fut t r)
              && decide (∀ q ∈ p :: rest, optNextIndex fut t q ≤ optNextIndex fut t r)) p
            = true) := by
          simp only [Bool.and_eq_true, decide_eq_true_eq, not_and]
          intro _ hforall
          exact hall fun q hq => hforall q (List.mem_cons_of_mem p hq)
        rw [List.find?_cons_of_neg rest hhead, ← hcong, hr]
        rfl
    · rw [if_neg hfi, ih]
      have hhead : ¬ ((fun r =>
          decide (fi < optNextIndex fut t r)
            && decide (∀ q ∈ p :: rest, optNextIndex fut t q ≤ optNextIndex fut t r)) p
          = true) := by
        simp only [Bool.and_eq_true, decide_eq_true_eq, not_and]
        intro hc
        exact absurd hc hfi
      rw [List.find?_cons_of_neg rest hhead]
      congr 1
      apply find?_congr
      intro r hr
      rw [← Bool.decide_and, ← Bool.decide_and, decide_eq_decide]
      constructor
      · rintro ⟨h1, h2⟩
        refine ⟨h1, ?_⟩
        intro q hq
        rcases List.mem_cons.1 hq with rfl | hq
        · exact (not_lt.1 hfi).trans h1.le
        · exact h2 q hq
      · rintro ⟨h1, h2⟩
        exact ⟨h1, fun q hq => h2 q (List.mem_cons_of_mem p hq)⟩

/-- `selectOptimalPage` computes the first resident page whose next
occurrence (strictly after the current step) is maximal. -/
theorem selectOptimalPage_find (s : Simulator) (t : Nat)
    (hfut : s.dataStructures.futureReferences = calculateFutureReferences s.referenceString) :
    selectOptimalPage s t =
      s.frames.find? (fun p => decide (∀ q ∈ s.frames,
        nextOccInRefs s.referenceString t q ≤ nextOccInRefs s.referenceString t p)) := by
  unfold selectOptimalPage
  rw [hfut, selectOptLoop_spec]
  simp only [optNextIndex_calc]
  rw [find?_congr _ _ (fun p => decide (∀ q ∈ s.frames,
      nextOccInRefs s.referenceString t q ≤ nextOccInRefs s.referenceString t p))
    (by
      intro p _
      have hlt : (t : WithTop Nat) < nextOccInRefs s.referenceString t p :=
        lt_nextOccurrenceAux s.referenceString 0 t p
      rw [decide_eq_true hlt, Bool.true_and])]
  cases hfr : s.frames with
  | nil => rfl
  | cons a l =>
    obtain ⟨p, hp, hmax⟩ := exists_arg_max (nextOccInRefs s.referenceString t) (a :: l)
      (List.cons_ne_nil a l)
    have hsome : ((a :: l).find? (fun p => decide (∀ q ∈ a :: l,
        nextOccInRefs s.referenceString t q ≤ nextOccInRefs s.referenceString t p))).isSome := by
      rw [List.find?_isSome]
      exact ⟨p, hp, by simpa using hmax⟩
    obtain ⟨r, hr⟩ := Option.isSome_iff_exists.1 hsome
    rw [hr]
    rfl

/-- **C3**: on a fault with a full frame set under the Optimal algorithm,
the evicted page is the resident page whose next occurrence in the
reference sequence strictly after the current step is largest (`⊤` for a
page that never recurs), and among pages attaining that maximum the
victim is the first in frame-iteration order: eviction returns exactly
the first resident page whose next occurrence is maximal, and mutates no
other state. -/
theorem c3_optimal_eviction (s : Simulator) (t : Nat)
    (halg : s.algorithm = "optimal")
    (hfut : s.dataStructures.futureReferences = calculateFutureReferences s.referenceString) :
    (selectPageToReplace s t).2 = s ∧
    (selectPageToReplace s t).1 =
      s.frames.find? (fun p => decide (∀ q ∈ s.frames,
        nextOccInRefs s.referenceString t q ≤ nextOccInRefs s.referenceString t p)) := by
  have hsel : selectPageToReplace s t = (selectOptimalPage s t, s) := by
    unfold selectPageToReplace
    rw [halg]
    rw [if_neg (by decide), if_neg (by decide), if_pos rfl]
  exact ⟨by rw [hsel], by rw [hsel]; exact selectOptimalPage_find s t hfut⟩

/-- Witness for `c3_optimal_eviction` at a concrete simulator state. -/
theorem c3_optimal_eviction_witness :
    (selectPageToReplace (construct "1,2,1,3" 2 "optimal") 0).2
        = construct "1,2,1,3" 2 "optimal" ∧
    (selectPageToReplace (construct "1,2,1,3" 2 "optimal") 0).1 =
      (construct "1,2,1,3" 2 "optimal").frames.find? (fun p =>
        decide (∀ q ∈ (construct "1,2,1,3" 2 "optimal").frames,
          nextOccInRefs (construct "1,2,1,3" 2 "optimal").referenceString 0 q
            ≤ nextOccInRefs (construct "1,2,1,3" 2 "optimal").referenceString 0 p)) :=
  c3_optimal_eviction (construct "1,2,1,3" 2 "optimal") 0 (by decide) (by decide)

/-!
## The Clock eviction scan (claim C4)
-/

theorem getD_ne_of_ne_idx (frames : List Page) (hnd : frames.Nodup) (i j : Nat)
    (hi : i < frames.length) (hj : j < frames.length) (hne : i ≠ j) :
    frames.getD i Page.nan ≠ frames.getD j Page.nan := by
  rw [List.getD_eq_get _ _ hi, List.getD_eq_get _ _ hj]
  intro hc
  have h := hnd.get_inj_iff.mp hc
  exact hne (by simpa using congrArg Fin.val h)

theorem slot_ne (F ptr m : Nat) (h1 : 1 ≤ m) (h2 : m < F) : (ptr + m) % F ≠ ptr % F := by
  intro hc
  have key : (ptr + m) % F = (ptr % F + m) % F := (Nat.mod_add_mod ptr F m).symm
  rw [key] at hc
  have hr : ptr % F < F := Nat.mod_lt _ (by omega)
  rcases lt_or_ge (ptr % F + m) F with hlt | hge
  · rw [Nat.mod_eq_of_lt hlt] at hc
    omega
  · have hsub : (ptr % F + m) % F = ptr % F + m - F := by
      rw [Nat.mod_eq_sub_mod hge, Nat.mod_eq_of_lt (by omega)]
    rw [hsub] at hc
    omega

/-- Core induction for the clock scan: if the `k` slots from the pointer
onwards carry set flags and slot `k` (or the wrapped-around start, when
`k = F`) carries a clear flag, then a scan with `k + 1` units of fuel
(inspections) finds exactly that slot, clears the first `k` flags, and
leaves the pointer one past the victim. -/
theorem clockScan_reaches :
    ∀ (k : Nat) (frames : List Page) (flags : List (Page × Bool)) (ptr F fuel : Nat),
      frames.length = F → 1 ≤ F → frames.Nodup → ptr < F → k ≤ F →
      (∀ j, j < k → flagGet flags (frames.getD ((ptr + j) % F) Page.nan) = true) →
      (k < F → flagGet flags (frames.getD ((ptr + k) % F) Page.nan) = false) →
      k + 1 ≤ fuel →
      ∃ flags',
        clockScan fuel frames flags ptr =
          some (some (frames.getD ((ptr + k) % F) Page.nan), flags', (ptr + k + 1) % F) ∧
        ∀ q, flagGet flags' q =
          if q ∈ (List.range k).map (fun j => frames.getD ((ptr + j) % F) Page.nan) then false
          else flagGet flags q := by
  intro k
  induction k with
  | zero =>
    intro frames flags ptr F fuel hlen hF hnd hptr _ _ hclear hfuel
    obtain ⟨fuel', rfl⟩ : ∃ fuel', fuel = fuel' + 1 := ⟨fuel - 1, by omega⟩
    have hptr' : ptr < frames.length := by omega
    have hget : frames.get? ptr = some (frames.getD ptr Page.nan) := by
      rw [List.getD_eq_get _ _ hptr']
      exact List.get?_eq_get hptr'
    have hmod : ptr % F = ptr := Nat.mod_eq_of_lt hptr
    have hflag : flagGet flags (frames.getD ptr Page.nan) = false := by
      have h := hclear (by omega)
      simpa [hmod] using h
    refine ⟨flags, ?_, ?_⟩
    · show clockScan (fuel' + 1) frames flags ptr = _
      unfold clockScan
      rw [hget]
      simp only [hflag, Bool.false_eq_true, if_false, hlen]
      simp [hmod]
    · intro q
      simp
  | succ k ih =>
    intro frames flags ptr F fuel hlen hF hnd hptr hkF hset hclear hfuel
    obtain ⟨fuel', rfl⟩ : ∃ fuel', fuel = fuel' + 1 := ⟨fuel - 1, by omega⟩
    have hptr' : ptr < frames.length := by omega
    have hget : frames.get? ptr = some (frames.getD ptr Page.nan) := by
      rw [List.getD_eq_get _ _ hptr']
      exact List.get?_eq_get hptr'
    have hmod : ptr % F = ptr := Nat.mod_eq_of_lt hptr
    have hflag0 : flagGet flags (frames.getD ptr Page.nan) = true := by
      have h := hset 0 (by omega)
      simpa [hmod] using h
    have hslot : ∀ j, (((ptr + 1) % F) + j) % F = (ptr + (j + 1)) % F := by
      intro j
      rw [Nat.mod_add_mod]
      congr 1
      omega
    have hne0 : ∀ j, 1 ≤ j → j < F →
        frames.getD ((ptr + j) % F) Page.nan ≠ frames.getD ptr Page.nan := by
      intro j h1 h2
      have hne := slot_ne F ptr j h1 h2
      rw [hmod] at hne
      exact getD_ne_of_ne_idx frames hnd _ _
        (by rw [hlen]; exact Nat.mod_lt _ (by omega)) hptr' hne
    set flags2 := flagSet flags (frames.getD ptr Page.nan) false with hflags2
    have hset2 : ∀ j, j < k →
        flagGet flags2 (frames.getD (((ptr + 1) % F + j) % F) Page.nan) = true := by
      intro j hj
      rw [hslot j, hflags2, flagGet_flagSet,
        if_neg (hne0 (j + 1) (by omega) (by omega))]
      exact hset (j + 1) (by omega)
    have hclear2 : k < F →
        flagGet flags2 (frames.getD (((ptr + 1) % F + k) % F) Page.nan) = false := by
      intro hkF2
      rw [hslot k, hflags2, flagGet_flagSet]
      rcases lt_or_eq_of_le hkF with hlt | heq
      · rw [if_neg (hne0 (k + 1) (by omega) (by omega))]
        exact hclear hlt
      · have hidx2 : (ptr + (k + 1)) % F = ptr := by
          rw [heq, Nat.add_mod_right, hmod]
        rw [hidx2, if_pos rfl]
    obtain ⟨flags3, hrun, hchar⟩ := ih frames flags2 ((ptr + 1) % F) F fuel' hlen hF hnd
      (Nat.mod_lt _ (by omega)) (by omega) hset2 hclear2 (by omega)
    refine ⟨flags3, ?_, ?_⟩
    · show clockScan (fuel' + 1) frames flags ptr = _
      unfold clockScan
      rw [hget]
      simp only [hflag0, if_true, hlen]
      rw [hrun, hslot k]
      have hp2 : ((ptr + 1) % F + k + 1) % F = (ptr + (k + 1) + 1) % F := by
        rw [Nat.add_assoc, Nat.mod_add_mod]
        congr 1
        omega
      rw [hp2]
    · intro q
      rw [hchar q, hflags2, flagGet_flagSet]
      have hmem : (q ∈ (List.range (k + 1)).map
            (fun j => frames.getD ((ptr + j) % F) Page.nan))
          ↔ (q = frames.getD ptr Page.nan ∨
             q ∈ (List.range k).map
               (fun j => frames.getD (((ptr + 1) % F + j) % F) Page.nan)) := by
        simp only [List.mem_map, List.mem_range]
        constructor
        · rintro ⟨j, hj, rfl⟩
          rcases Nat.eq_zero_or_pos j with rfl | hpos
          · left
            simp [hmod]
          · right
            refine ⟨j - 1, by omega, ?_⟩
            rw [hslot (j - 1)]
            have hj1 : j - 1 + 1 = j := by omega
            rw [hj1]
        · rintro (h | ⟨j, hj, rfl⟩)
          · refine ⟨0, by omega, ?_⟩
            rw [h]
            simp [hmod]
          · refine ⟨j + 1, by omega, ?_⟩
            rw [hslot j]
      by_cases hq1 : q ∈ (List.range k).map
          (fun j => frames.getD (((ptr + 1) % F + j) % F) Page.nan)
      · rw [if_pos hq1, if_pos (hmem.2 (Or.inr hq1))]
      · rw [if_neg hq1]
        by_cases hq2 : q = frames.getD ptr Page.nan
        · rw [if_pos hq2, if_pos (hmem.2 (Or.inl hq2))]
        · rw [if_neg hq2, if_neg (fun hc => by
            rcases hmem.1 hc with h | h
            · exact hq2 h
            · exact hq1 h)]

/-- **C4**: on a fault with a full frame set (`F = frames.length ≥ 1`,
pointer in range, resident pages distinct) the clock scan terminates
within at most `2·F` inspections (fuel `2·F` suffices, each unit of fuel
being one inspection) and there is a scan length `k ≤ F` such that: every
inspected page before the victim had its reference flag set, and exactly
those flags are cleared; the victim is the first inspected page whose
flag is clear; and the pointer ends one slot past the victim, modulo
`F`. -/
theorem c4_clock_eviction_scan (frames : List Page) (flags : List (Page × Bool))
    (ptr F : Nat) (hlen : frames.length = F) (hF : 1 ≤ F) (hnd : frames.Nodup)
    (hptr : ptr < F) :
    ∃ k ≤ F,
      (∀ j, j < k → flagGet flags (frames.getD ((ptr + j) % F) Page.nan) = true) ∧
      (k < F → flagGet flags (frames.getD ((ptr + k) % F) Page.nan) = false) ∧
      ∃ flags',
        clockScan (2 * F) frames flags ptr =
          some (some (frames.getD ((ptr + k) % F) Page.nan), flags', (ptr + k + 1) % F) ∧
        ∀ q, flagGet flags' q =
          if q ∈ (List.range k).map (fun j => frames.getD ((ptr + j) % F) Page.nan) then false
          else flagGet flags q := by
  by_cases hex : ∃ j, j < F ∧ flagGet flags (frames.getD ((ptr + j) % F) Page.nan) = false
  · have hk := Nat.find_spec hex
    have hmin : ∀ j, j < Nat.find hex →
        flagGet flags (frames.getD ((ptr + j) % F) Page.nan) = true := by
      intro j hj
      have h := Nat.find_min hex hj
      have hjF : j < F := hj.trans hk.1
      cases hcase : flagGet flags (frames.getD ((ptr + j) % F) Page.nan)
      · exact absurd ⟨hjF, hcase⟩ h
      · rfl
    obtain ⟨flags', h1, h2⟩ := clockScan_reaches (Nat.find hex) frames flags ptr F (2 * F)
      hlen hF hnd hptr (le_of_lt hk.1) hmin (fun _ => hk.2) (by omega)
    exact ⟨Nat.find hex, le_of_lt hk.1, hmin, fun _ => hk.2, flags', h1, h2⟩
  · push_neg at hex
    have hall : ∀ j, j < F → flagGet flags (frames.getD ((ptr + j) % F) Page.nan) = true := by
      intro j hj
      cases hcase : flagGet flags (frames.getD ((ptr + j) % F) Page.nan)
      · exact absurd hcase (hex j hj)
      · rfl
    obtain ⟨flags', h1, h2⟩ := clockScan_reaches F frames flags ptr F (2 * F)
      hlen hF hnd hptr le_rfl (fun j hj => hall j hj)
      (fun hc => absurd hc (lt_irrefl F)) (by omega)
    exact ⟨F, le_rfl, hall, fun hc => absurd hc (lt_irrefl F), flags', h1, h2⟩

/-- Witness for `c4_clock_eviction_scan` on a concrete full frame set. -/
theorem c4_clock_eviction_scan_witness :
    ∃ k ≤ 2,
      (∀ j, j < k → flagGet [(Page.int 1, true)]
        ([Page.int 1, Page.int 2].getD ((0 + j) % 2) Page.nan) = true) ∧
      (k < 2 → flagGet [(Page.int 1, true)]
        ([Page.int 1, Page.int 2].getD ((0 + k) % 2) Page.nan) = false) ∧
      ∃ flags',
        clockScan (2 * 2) [Page.int 1, Page.int 2] [(Page.int 1, true)] 0 =
          some (some ([Page.int 1, Page.int 2].getD ((0 + k) % 2) Page.nan), flags',
            (0 + k + 1) % 2) ∧
        ∀ q, flagGet flags' q =
          if q ∈ (List.range k).map
              (fun j => [Page.int 1, Page.int 2].getD ((0 + j) % 2) Page.nan) then false
          else flagGet [(Page.int 1, true)] q :=
  c4_clock_eviction_scan [Page.int 1, Page.int 2] [(Page.int 1, true)] 0 2
    (by decide) (by decide) (by decide) (by decide)

/-!
## FIFO and LRU bookkeeping (claim C10)
-/

/-- The pages recorded as faults in the history, in chronological order
(the insertion order of the FIFO queue). -/
def faultSeq (h : List StepRecord) : List Page :=
  (h.filter (fun r => !r.isHit)).map (fun r => r.page)

theorem seq_eq_decide (q v : Page) (hv : v ≠ Page.nan) : Page.seq q v = decide (q = v) := by
  cases q with
  | nan =>
    cases v with
    | nan => exact absurd rfl hv
    | int b => simp [Page.seq]
  | int a =>
    cases v with
    | nan => exact absurd rfl hv
    | int b => by_cases h : a = b <;> simp [Page.seq, h]

theorem processPage_fifo_hit (s : Simulator) (p : Page) (i : Nat)
    (halg : s.algorithm = "fifo") (hmem : p ∈ s.frames) :
    (processPage s p i).frames = s.frames ∧
    (processPage s p i).dataStructures.queue = s.dataStructures.queue := by
  have hc : s.frames.contains p = true := by simpa using hmem
  simp [processPage, updateDataStructures, hc, hmem, halg]

theorem processPage_fifo_room (s : Simulator) (p : Page) (i : Nat)
    (halg : s.algorithm = "fifo") (hmem : p ∉ s.frames)
    (hroom : s.frames.length < s.numFrames) :
    (processPage s p i).frames = s.frames ++ [p] ∧
    (processPage s p i).dataStructures.queue = s.dataStructures.queue ++ [p] := by
  have hc : s.frames.contains p = false := by simpa using hmem
  simp [processPage, updateDataStructures, hc, hmem, halg, hroom]

theorem processPage_fifo_full (s : Simulator) (p : Page) (i : Nat)
    (halg : s.algorithm = "fifo") (hmem : p ∉ s.frames)
    (hfull : ¬ s.frames.length < s.numFrames)
    (v : Page) (qrest : List Page) (hq : s.dataStructures.queue = v :: qrest) :
    (processPage s p i).frames =
      (match s.frames.findIdx? (fun q => Page.seq q v) with
        | some j => s.frames.set j p
        | none => s.frames) ∧
    (processPage s p i).dataStructures.queue = qrest ++ [p] := by
  have hc : s.frames.contains p = false := by simpa using hmem
  simp only [processPage, hc, hmem, Bool.false_eq_true, if_false, hfull]
  simp [selectPageToReplace, updateDataStructures, hmem, halg, hq, hfull]
  cases hidx : s.frames.findIdx? (fun q => Page.seq q v) <;> simp [hidx]

theorem processPage_lru_hit (s : Simulator) (p : Page) (i : Nat)
    (halg : s.algorithm = "lru") (hmem : p ∈ s.frames) :
    (processPage s p i).frames = s.frames ∧
    (processPage s p i).dataStructures.recencyList =
      (s.dataStructures.recencyList.filter (fun q => !(Page.seq q p))) ++ [p] := by
  have hc : s.frames.contains p = true := by simpa using hmem
  simp [processPage, updateDataStructures, hc, hmem, halg]

theorem processPage_lru_room (s : Simulator) (p : Page) (i : Nat)
    (halg : s.algorithm = "lru") (hmem : p ∉ s.frames)
    (hroom : s.frames.length < s.numFrames) :
    (processPage s p i).frames = s.frames ++ [p] ∧
    (processPage s p i).dataStructures.recencyList =
      (s.dataStructures.recencyList.filter (fun q => !(Page.seq q p))) ++ [p] := by
  have hc : s.frames.contains p = false := by simpa using hmem
  simp [processPage, updateDataStructures, hc, hmem, halg, hroom]

theorem processPage_lru_full (s : Simulator) (p : Page) (i : Nat)
    (halg : s.algorithm = "lru") (hmem : p ∉ s.frames)
    (hfull : ¬ s.frames.length < s.numFrames)
    (v : Page) (rest : List Page) (hrl : s.dataStructures.recencyList = v :: rest) :
    (processPage s p i).frames =
      (match s.frames.findIdx? (fun q => Page.seq q v) with
        | some j => s.frames.set j p
        | none => s.frames) ∧
    (processPage s p i).dataStructures.recencyList =
      (rest.filter (fun q => !(Page.seq q p))) ++ [p] := by
  have hc : s.frames.contains p = false := by simpa using hmem
  simp only [processPage, hc, hmem, Bool.false_eq_true, if_false, hfull]
  simp [selectPageToReplace, updateDataStructures, hmem, halg, hrl, hfull]
  cases hidx : s.frames.findIdx? (fun q => Page.seq q v) <;> simp [hidx]

/-- Decomposition of the replacement step `frames[frames.indexOf(v)] = p`:
the first occurrence of the victim is overwritten in place. -/
theorem jsReplace_spec : ∀ (l : List Page) (v p : Page), v ∈ l → v ≠ Page.nan →
    ∃ l1 l2, l = l1 ++ v :: l2 ∧ v ∉ l1 ∧
      (match l.findIdx? (fun q => Page.seq q v) with
        | some i => l.set i p
        | none => l) = l1 ++ p :: l2 := by
  intro l
  induction l with
  | nil => intro v p hv _; exact absurd hv (List.not_mem_nil v)
  | cons a l ih =>
    intro v p hv hvn
    by_cases hav : a = v
    · refine ⟨[], l, by simp [hav], List.not_mem_nil v, ?_⟩
      have hpa : Page.seq a v = true := by
        rw [seq_eq_decide a v hvn, decide_eq_true_eq]
        exact hav
      rw [List.findIdx?_cons, hpa, if_pos rfl]
      rfl
    · have hvl : v ∈ l := by
        rcases List.mem_cons.1 hv with h | h
        · exact absurd h.symm hav
        · exact h
      obtain ⟨l1, l2, hdec, hnotm, hres⟩ := ih v p hvl hvn
      refine ⟨a :: l1, l2, by rw [List.cons_append, hdec], ?_, ?_⟩
      · intro hc
        rcases List.mem_cons.1 hc with h | h
        · exact hav h.symm
        · exact hnotm h
      · have hpa : Page.seq a v = false := by
          rw [seq_eq_decide a v hvn]
          simpa using hav
        rw [List.findIdx?_cons, hpa]
        simp only [Bool.false_eq_true, if_false, List.findIdx?_succ]
        cases hidx : l.findIdx? (fun q => Page.seq q v) with
        | none =>
          exfalso
          have := List.findIdx?_eq_none_iff.1 hidx
          have hfv := this v hvl
          rw [seq_eq_decide v v hvn] at hfv
          simp at hfv
        | some j =>
          rw [hidx] at hres
          simp only [Option.map_some']
          rw [List.cons_append, ← hres]
          rfl

theorem suffix_append_one {l m : List Page} (a : Page) (h : l <:+ m) :
    l ++ [a] <:+ m ++ [a] := by
  obtain ⟨t, rfl⟩ := h
  exact ⟨t, (List.append_assoc t l [a]).symm⟩

theorem suffix_of_cons_suffix {v : Page} {l m : List Page} (h : v :: l <:+ m) :
    l <:+ m := by
  obtain ⟨t, rfl⟩ := h
  exact ⟨t ++ [v], by simp⟩

theorem faultSeq_append_one (h : List StepRecord) (r : StepRecord) :
    faultSeq (h ++ [r]) = faultSeq h ++ (if r.isHit then [] else [r.page]) := by
  unfold faultSeq
  rw [List.filter_append, List.map_append]
  cases hr : r.isHit <;> simp [List.filter, hr]

/-- The FIFO bookkeeping invariant: the queue holds exactly the resident
pages, without duplicates, and is a suffix of the chronological fault
sequence (insertion order). -/
theorem fifo_invariant : ∀ (l : List Page) (s : Simulator) (i : Nat),
    s.algorithm = "fifo" → 1 ≤ s.numFrames →
    Page.nan ∉ l →
    s.frames.Nodup → Page.nan ∉ s.frames →
    s.dataStructures.queue.Nodup →
    (∀ q, q ∈ s.dataStructures.queue ↔ q ∈ s.frames) →
    s.dataStructures.queue <:+ faultSeq s.history →
    (processList s i l).frames.Nodup ∧ Page.nan ∉ (processList s i l).frames ∧
    (processList s i l).dataStructures.queue.Nodup ∧
    (∀ q, q ∈ (processList s i l).dataStructures.queue ↔ q ∈ (processList s i l).frames) ∧
    (processList s i l).dataStructures.queue <:+ faultSeq (processList s i l).history := by
  intro l
  induction l with
  | nil =>
    intro s i _ _ _ h1 h2 h3 h4 h5
    exact ⟨h1, h2, h3, h4, h5⟩
  | cons p rest ih =>
    intro s i halg hF hnanl hnd hnan hqnd hiff hsuf
    have hpnan : p ≠ Page.nan := fun hc => hnanl (hc ▸ List.mem_cons_self p rest)
    have hnanr : Page.nan ∉ rest := fun hc => hnanl (List.mem_cons_of_mem p hc)
    obtain ⟨hrs, hnf, hal, _, _, hhist, _⟩ := processPage_spec s p i
    have hstep : processList s i (p :: rest) = processList (processPage s p i) (i + 1) rest :=
      rfl
    rw [hstep]
    by_cases hp : p ∈ s.frames
    · obtain ⟨hfr, hqu⟩ := processPage_fifo_hit s p i halg hp
      have hsuf' : (processPage s p i).dataStructures.queue
          <:+ faultSeq (processPage s p i).history := by
        rw [hqu, hhist, faultSeq_append_one]
        have : (s.frames.contains p : Bool) = true := by simpa using hp
        simp only [this, if_true]
        simpa using hsuf
      exact ih (processPage s p i) (i + 1) (hal ▸ halg) (hnf ▸ hF) hnanr
        (hfr ▸ hnd) (hfr ▸ hnan) (hqu ▸ hqnd)
        (fun q => by rw [hqu, hfr]; exact hiff q) hsuf'
    · by_cases hroom : s.frames.length < s.numFrames
      · obtain ⟨hfr, hqu⟩ := processPage_fifo_room s p i halg hp hroom
        have hpq : p ∉ s.dataStructures.queue := fun hc => hp ((hiff p).1 hc)
        have hnd' : (s.frames ++ [p]).Nodup := by
          rw [List.nodup_append]
          exact ⟨hnd, List.nodup_singleton p, by
            intro a ha hb
            rw [List.mem_singleton] at hb
            exact hp (hb ▸ ha)⟩
        have hsuf' : (processPage s p i).dataStructures.queue
            <:+ faultSeq (processPage s p i).history := by
          rw [hqu, hhist, faultSeq_append_one]
          have : (s.frames.contains p : Bool) = false := by simpa using hp
          simp only [this, Bool.false_eq_true, if_false]
          exact suffix_append_one p hsuf
        refine ih (processPage s p i) (i + 1) (hal ▸ halg) (hnf ▸ hF) hnanr
          (hfr ▸ hnd') (by
            rw [hfr]
            intro hc
            rcases List.mem_append.1 hc with h | h
            · exact hnan h
            · rw [List.mem_singleton] at h
              exact hpnan h.symm) (by
            rw [hqu]
            rw [List.nodup_append]
            exact ⟨hqnd, List.nodup_singleton p, by
              intro a ha hb
              rw [List.mem_singleton] at hb
              exact hpq (hb ▸ ha)⟩)
          (fun q => by
            rw [hqu, hfr, List.mem_append, List.mem_append]
            exact or_congr_left (hiff q)) hsuf'
      · have hqne : s.dataStructures.queue ≠ [] := by
          intro hc
          have hfe : s.frames = [] := by
            cases hfr : s.frames with
            | nil => rfl
            | cons x xs =>
              exfalso
              have : x ∈ s.dataStructures.queue := (hiff x).2 (by
                rw [hfr]
                exact List.mem_cons_self x xs)
              rw [hc] at this
              exact List.not_mem_nil x this
          rw [hfe] at hroom
          simp at hroom
          omega
        obtain ⟨v, qrest, hq⟩ : ∃ v qrest, s.dataStructures.queue = v :: qrest := by
          cases hqc : s.dataStructures.queue with
          | nil => exact absurd hqc hqne
          | cons v qrest => exact ⟨v, qrest, rfl⟩
        have hvq : v ∈ s.dataStructures.queue := by rw [hq]; exact List.mem_cons_self v qrest
        have hvf : v ∈ s.frames := (hiff v).1 hvq
        have hvn : v ≠ Page.nan := fun hc => hnan (hc ▸ hvf)
        obtain ⟨hfr, hqu⟩ := processPage_fifo_full s p i halg hp hroom v qrest hq
        obtain ⟨l1, l2, hdec, hvl1, hres⟩ := jsReplace_spec s.frames v p hvf hvn
        rw [hres] at hfr
        have hvl2 : v ∉ l2 := by
          rw [hdec, List.nodup_append] at hnd
          have := hnd.2.1
          rw [List.nodup_cons] at this
          exact this.1
        have hdisj : ∀ a, a ∈ l1 → a ∈ v :: l2 → False := by
          rw [hdec, List.nodup_append] at hnd
          intro a ha hb
          exact hnd.2.2 ha hb
        have hpl : p ∉ l1 ∧ p ∉ l2 := by
          constructor
          · intro hc
            exact hp (by rw [hdec]; exact List.mem_append.2 (Or.inl hc))
          · intro hc
            exact hp (by
              rw [hdec]
              exact List.mem_append.2 (Or.inr (List.mem_cons_of_mem v hc)))
        have hnd2 : (l1 ++ p :: l2).Nodup := by
          rw [hdec, List.nodup_append] at hnd
          rw [List.nodup_append]
          refine ⟨hnd.1, ?_, ?_⟩
          · rw [List.nodup_cons]
            have := hnd.2.1
            rw [List.nodup_cons] at this
            exact ⟨hpl.2, this.2⟩
          · intro a ha hb
            rcases List.mem_cons.1 hb with rfl | hb
            · exact hpl.1 ha
            · exact hdisj a ha (List.mem_cons_of_mem v hb)
        have hvqrest : v ∉ qrest := by
          rw [hq, List.nodup_cons] at hqnd
          exact hqnd.1
        have hqrnd : qrest.Nodup := by
          rw [hq, List.nodup_cons] at hqnd
          exact hqnd.2
        have hpqrest : p ∉ qrest := by
          intro hc
          exact hp ((hiff p).1 (by rw [hq]; exact List.mem_cons_of_mem v hc))
        have hiff2 : ∀ q, q ∈ qrest ++ [p] ↔ q ∈ l1 ++ p :: l2 := by
          intro q
          rw [List.mem_append, List.mem_singleton, List.mem_append, List.mem_cons]
          constructor
          · rintro (hqr | rfl)
            · have hqq : q ∈ s.frames := (hiff q).1 (by
                rw [hq]; exact List.mem_cons_of_mem v hqr)
              rw [hdec, List.mem_append, List.mem_cons] at hqq
              rcases hqq with h | h | h
              · exact Or.inl h
              · exact absurd (h ▸ hqr) hvqrest
              · exact Or.inr (Or.inr h)
            · exact Or.inr (Or.inl rfl)
          · rintro (h | h | h)
            · have hqf : q ∈ s.frames := by rw [hdec]; exact List.mem_append.2 (Or.inl h)
              have := (hiff q).2 hqf
              rw [hq, List.mem_cons] at this
              rcases this with rfl | hqr
              · exact absurd h hvl1
              · exact Or.inl hqr
            · exact Or.inr h
            · have hqf : q ∈ s.frames := by
                rw [hdec]
                exact List.mem_append.2 (Or.inr (List.mem_cons_of_mem v h))
              have := (hiff q).2 hqf
              rw [hq, List.mem_cons] at this
              rcases this with rfl | hqr
              · exact absurd h hvl2
              · exact Or.inl hqr
        have hsuf' : qrest ++ [p] <:+ faultSeq (processPage s p i).history := by
          rw [hhist, faultSeq_append_one]
          have : (s.frames.contains p : Bool) = false := by simpa using hp
          simp only [this, Bool.false_eq_true, if_false]
          exact suffix_append_one p (suffix_of_cons_suffix (hq ▸ hsuf))
        refine ih (processPage s p i) (i + 1) (hal ▸ halg) (hnf ▸ hF) hnanr
          (hfr ▸ hnd2) (by
            rw [hfr]
            intro hc
            rw [List.mem_append, List.mem_cons] at hc
            rcases hc with h | h | h
            · exact hnan (by rw [hdec]; exact List.mem_append.2 (Or.inl h))
            · exact hpnan h.symm
            · exact hnan (by
                rw [hdec]
                exact List.mem_append.2 (Or.inr (List.mem_cons_of_mem v h)))) (by
            rw [hqu, List.nodup_append]
            exact ⟨hqrnd, List.nodup_singleton p, by
              intro a ha hb
              rw [List.mem_singleton] at hb
              exact hpqrest (hb ▸ ha)⟩)
          (fun q => by rw [hqu, hfr]; exact hiff2 q) (hqu ▸ hsuf')

theorem lastAccess_lt (refs : List Page) (k : Nat) (q : Page) :
    lastAccess refs k q < (k : WithBot Nat) := by
  unfold lastAccess
  rcases hm : ((List.range k).filter
      (fun j => decide (refs.getD j Page.nan = q))).maximum with _ | m
  · exact WithBot.bot_lt_coe k
  · have hmem := (List.maximum_eq_coe_iff.1 hm).1
    have hlt : m < k := List.mem_range.1 (List.mem_of_mem_filter hmem)
    exact WithBot.coe_lt_coe.2 hlt

theorem lastAccess_succ_self (refs : List Page) (i : Nat) (p : Page)
    (hp : refs.getD i Page.nan = p) :
    lastAccess refs (i + 1) p = (i : WithBot Nat) := by
  unfold lastAccess
  rw [List.range_succ, List.filter_append]
  have hone : List.filter (fun j => decide (refs.getD j Page.nan = p)) [i] = [i] := by
    simp only [List.filter_cons, List.filter_nil]
    rw [hp]
    simp
  rw [hone, List.maximum_concat]
  rcases hm : ((List.range i).filter
      (fun j => decide (refs.getD j Page.nan = p))).maximum with _ | m
  · show ⊥ ⊔ (i : WithBot Nat) = (i : WithBot Nat)
    simp
  · have hmem := (List.maximum_eq_coe_iff.1 hm).1
    have hlt : m < i := List.mem_range.1 (List.mem_of_mem_filter hmem)
    exact sup_eq_right.2 (WithBot.coe_le_coe.2 hlt.le)

theorem lastAccess_succ_other (refs : List Page) (i : Nat) (q : Page)
    (hq : refs.getD i Page.nan ≠ q) :
    lastAccess refs (i + 1) q = lastAccess refs i q := by
  unfold lastAccess
  rw [List.range_succ, List.filter_append]
  have hone : List.filter (fun j => decide (refs.getD j Page.nan = q)) [i] = [] := by
    simp only [List.filter_cons, List.filter_nil]
    have hd : decide (refs.getD i Page.nan = q) = false := by simpa using hq
    rw [hd]
    simp
  rw [hone, List.append_nil]

/-- Effect of the LRU access update `filter(≠ p) ++ [p]` on the recency
invariants: the result has no duplicates, contains the old pages minus
`p` plus `p`, and is sorted by last access up to the new position. -/
theorem lru_list_update (refs : List Page) (i : Nat) (p : Page) (hp : p ≠ Page.nan)
    (hgi : refs.getD i Page.nan = p)
    (A : List Page) (hnd : A.Nodup)
    (hpw : A.Pairwise (fun a b => lastAccess refs i a < lastAccess refs i b)) :
    ((A.filter (fun q => !(Page.seq q p))) ++ [p]).Nodup ∧
    (∀ q, q ∈ (A.filter (fun q => !(Page.seq q p))) ++ [p] ↔ (q ∈ A ∧ q ≠ p) ∨ q = p) ∧
    ((A.filter (fun q => !(Page.seq q p))) ++ [p]).Pairwise
      (fun a b => lastAccess refs (i + 1) a < lastAccess refs (i + 1) b) := by
  have hmemf : ∀ q, q ∈ A.filter (fun r => !(Page.seq r p)) ↔ q ∈ A ∧ q ≠ p := by
    intro q
    rw [List.mem_filter]
    constructor
    · rintro ⟨hm, hpred⟩
      refine ⟨hm, ?_⟩
      rw [seq_eq_decide q p hp] at hpred
      simpa using hpred
    · rintro ⟨hm, hne⟩
      refine ⟨hm, ?_⟩
      rw [seq_eq_decide q p hp]
      simpa using hne
  refine ⟨?_, ?_, ?_⟩
  · rw [List.nodup_append]
    refine ⟨(List.filter_sublist A).nodup hnd, List.nodup_singleton p, ?_⟩
    intro a ha hb
    rw [List.mem_singleton] at hb
    exact ((hmemf a).1 ha).2 hb
  · intro q
    rw [List.mem_append, List.mem_singleton, hmemf q]
  · rw [List.pairwise_append]
    refine ⟨?_, List.pairwise_singleton _ p, ?_⟩
    · have hsub : (A.filter (fun r => !(Page.seq r p))).Pairwise
          (fun a b => lastAccess refs i a < lastAccess refs i b) :=
        List.Pairwise.sublist (List.filter_sublist A) hpw
      refine hsub.imp_of_mem ?_
      intro a b ha hb hlt
      rw [lastAccess_succ_other refs i a (by rw [hgi]; exact fun hc => ((hmemf a).1 ha).2 hc.symm),
        lastAccess_succ_other refs i b (by rw [hgi]; exact fun hc => ((hmemf b).1 hb).2 hc.symm)]
      exact hlt
    · intro a ha b hb
      rw [List.mem_singleton] at hb
      subst hb
      rw [lastAccess_succ_other refs i a (by rw [hgi]; exact fun hc => ((hmemf a).1 ha).2 hc.symm),
        lastAccess_succ_self refs i b hgi]
      exact lastAccess_lt refs i a

/-- The LRU bookkeeping invariant: the recency list holds exactly the
resident pages, without duplicates, ordered by last access (least
recently used at the head). -/
theorem lru_invariant : ∀ (l : List Page) (refs : List Page) (i : Nat) (s : Simulator),
    s.algorithm = "lru" → 1 ≤ s.numFrames →
    Page.nan ∉ l →
    (∀ j, j < l.length → refs.getD (i + j) Page.nan = l.getD j Page.nan) →
    s.frames.Nodup → Page.nan ∉ s.frames →
    s.dataStructures.recencyList.Nodup →
    (∀ q, q ∈ s.dataStructures.recencyList ↔ q ∈ s.frames) →
    s.dataStructures.recencyList.Pairwise
      (fun a b => lastAccess refs i a < lastAccess refs i b) →
    (processList s i l).frames.Nodup ∧ Page.nan ∉ (processList s i l).frames ∧
    (processList s i l).dataStructures.recencyList.Nodup ∧
    (∀ q, q ∈ (processList s i l).dataStructures.recencyList ↔
      q ∈ (processList s i l).frames) ∧
    (processList s i l).dataStructures.recencyList.Pairwise
      (fun a b => lastAccess refs (i + l.length) a < lastAccess refs (i + l.length) b) := by
  intro l
  induction l with
  | nil =>
    intro refs i s _ _ _ _ h1 h2 h3 h4 h5
    exact ⟨h1, h2, h3, h4, by simpa using h5⟩
  | cons p rest ih =>
    intro refs i s halg hF hnanl hpre hnd hnan hrnd hiff hpw
    have hpnan : p ≠ Page.nan := fun hc => hnanl (hc ▸ List.mem_cons_self p rest)
    have hnanr : Page.nan ∉ rest := fun hc => hnanl (List.mem_cons_of_mem p hc)
    have hgi : refs.getD i Page.nan = p := by
      have := hpre 0 (by simp)
      simpa using this
    have hpre' : ∀ j, j < rest.length → refs.getD (i + 1 + j) Page.nan = rest.getD j Page.nan := by
      intro j hj
      have := hpre (j + 1) (by simpa using Nat.succ_lt_succ hj)
      rw [show i + (j + 1) = i + 1 + j from by omega] at this
      simpa using this
    obtain ⟨_, hnf, hal, _, _, _, _⟩ := processPage_spec s p i
    have hstep : processList s i (p :: rest) = processList (processPage s p i) (i + 1) rest :=
      rfl
    rw [hstep]
    have hlen : (i + (p :: rest).length) = (i + 1) + rest.length := by
      simp [List.length_cons]
      omega
    by_cases hp : p ∈ s.frames
    · obtain ⟨hfr, hrl⟩ := processPage_lru_hit s p i halg hp
      obtain ⟨hB1, hB2, hB3⟩ := lru_list_update refs i p hpnan hgi
        s.dataStructures.recencyList hrnd hpw
      have := ih refs (i + 1) (processPage s p i) (hal ▸ halg) (hnf ▸ hF) hnanr hpre'
        (hfr ▸ hnd) (hfr ▸ hnan) (hrl ▸ hB1)
        (fun q => by
          rw [hrl, hfr, hB2 q]
          constructor
          · rintro (⟨h1, _⟩ | rfl)
            · exact (hiff q).1 h1
            · exact hp
          · intro hq
            by_cases hqp : q = p
            · exact Or.inr hqp
            · exact Or.inl ⟨(hiff q).2 hq, hqp⟩)
        (hrl ▸ hB3)
      rw [hlen]
      exact this
    · by_cases hroom : s.frames.length < s.numFrames
      · obtain ⟨hfr, hrl⟩ := processPage_lru_room s p i halg hp hroom
        obtain ⟨hB1, hB2, hB3⟩ := lru_list_update refs i p hpnan hgi
          s.dataStructures.recencyList hrnd hpw
        have hnd' : (s.frames ++ [p]).Nodup := by
          rw [List.nodup_append]
          exact ⟨hnd, List.nodup_singleton p, by
            intro a ha hb
            rw [List.mem_singleton] at hb
            exact hp (hb ▸ ha)⟩
        have := ih refs (i + 1) (processPage s p i) (hal ▸ halg) (hnf ▸ hF) hnanr hpre'
          (hfr ▸ hnd') (by
            rw [hfr]
            intro hc
            rcases List.mem_append.1 hc with h | h
            · exact hnan h
            · rw [List.mem_singleton] at h
              exact hpnan h.symm)
          (hrl ▸ hB1)
          (fun q => by
            rw [hrl, hfr, hB2 q, List.mem_append, List.mem_singleton]
            constructor
            · rintro (⟨h1, _⟩ | rfl)
              · exact Or.inl ((hiff q).1 h1)
              · exact Or.inr rfl
            · rintro (hq | rfl)
              · exact Or.inl ⟨(hiff q).2 hq, fun hc => hp (hc ▸ hq)⟩
              · exact Or.inr rfl)
          (hrl ▸ hB3)
        rw [hlen]
        exact this
      · have hrlne : s.dataStructures.recencyList ≠ [] := by
          intro hc
          have hfe : s.frames = [] := by
            cases hfr : s.frames with
            | nil => rfl
            | cons x xs =>
              exfalso
              have : x ∈ s.dataStructures.recencyList := (hiff x).2 (by
                rw [hfr]
                exact List.mem_cons_self x xs)
              rw [hc] at this
              exact List.not_mem_nil x this
          rw [hfe] at hroom
          simp at hroom
          omega
        obtain ⟨v, rlrest, hrleq⟩ : ∃ v rlrest,
            s.dataStructures.recencyList = v :: rlrest := by
          cases hrc : s.dataStructures.recencyList with
          | nil => exact absurd hrc hrlne
          | cons v rlrest => exact ⟨v, rlrest, rfl⟩
        have hvf : v ∈ s.frames := (hiff v).1 (by
          rw [hrleq]
          exact List.mem_cons_self v rlrest)
        have hvn : v ≠ Page.nan := fun hc => hnan (hc ▸ hvf)
        obtain ⟨hfr, hrl⟩ := processPage_lru_full s p i halg hp hroom v rlrest hrleq
        obtain ⟨l1, l2, hdec, hvl1, hres⟩ := jsReplace_spec s.frames v p hvf hvn
        rw [hres] at hfr
        have hvl2 : v ∉ l2 := by
          rw [hdec, List.nodup_append] at hnd
          have := hnd.2.1
          rw [List.nodup_cons] at this
          exact this.1
        have hdisj : ∀ a, a ∈ l1 → a ∈ v :: l2 → False := by
          rw [hdec, List.nodup_append] at hnd
          intro a ha hb
          exact hnd.2.2 ha hb
        have hpl : p ∉ l1 ∧ p ∉ l2 := by
          constructor
          · intro hc
            exact hp (by rw [hdec]; exact List.mem_append.2 (Or.inl hc))
          · intro hc
            exact hp (by
              rw [hdec]
              exact List.mem_append.2 (Or.inr (List.mem_cons_of_mem v hc)))
        have hnd2 : (l1 ++ p :: l2).Nodup := by
          rw [hdec, List.nodup_append] at hnd
          rw [List.nodup_append]
          refine ⟨hnd.1, ?_, ?_⟩
          · rw [List.nodup_cons]
            have := hnd.2.1
            rw [List.nodup_cons] at this
            exact ⟨hpl.2, this.2⟩
          · intro a ha hb
            rcases List.mem_cons.1 hb with rfl | hb
            · exact hpl.1 ha
            · exact hdisj a ha (List.mem_cons_of_mem v hb)
        have hvrl : v ∉ rlrest := by
          rw [hrleq, List.nodup_cons] at hrnd
          exact hrnd.1
        have hrlrnd : rlrest.Nodup := by
          rw [hrleq, List.nodup_cons] at hrnd
          exact hrnd.2
        have hrlrpw : rlrest.Pairwise
            (fun a b => lastAccess refs i a < lastAccess refs i b) := by
          rw [hrleq, List.pairwise_cons] at hpw
          exact hpw.2
        obtain ⟨hB1, hB2, hB3⟩ := lru_list_update refs i p hpnan hgi rlrest hrlrnd hrlrpw
        have := ih refs (i + 1) (processPage s p i) (hal ▸ halg) (hnf ▸ hF) hnanr hpre'
          (hfr ▸ hnd2) (by
            rw [hfr]
            intro hc
            rw [List.mem_append, List.mem_cons] at hc
            rcases hc with h | h | h
            · exact hnan (by rw [hdec]; exact List.mem_append.2 (Or.inl h))
            · exact hpnan h.symm
            · exact hnan (by
                rw [hdec]
                exact List.mem_append.2 (Or.inr (List.mem_cons_of_mem v h))))
          (hrl ▸ hB1)
          (fun q => by
            rw [hrl, hfr, hB2 q, List.mem_append, List.mem_cons]
            constructor
            · rintro (⟨h1, _⟩ | rfl)
              · have hqf : q ∈ s.frames := (hiff q).1 (by
                  rw [hrleq]
                  exact List.mem_cons_of_mem v h1)
                rw [hdec, List.mem_append, List.mem_cons] at hqf
                rcases hqf with h | h | h
                · exact Or.inl h
                · exact absurd (h ▸ h1) hvrl
                · exact Or.inr (Or.inr h)
              · exact Or.inr (Or.inl rfl)
            · rintro (h | h | h)
              · have hqf : q ∈ s.frames := by
                  rw [hdec]
                  exact List.mem_append.2 (Or.inl h)
                have hqrl := (hiff q).2 hqf
                rw [hrleq, List.mem_cons] at hqrl
                rcases hqrl with rfl | hqr
                · exact absurd h hvl1
                · exact Or.inl ⟨hqr, fun hc => hp (hc ▸ hqf)⟩
              · exact Or.inr h
              · have hqf : q ∈ s.frames := by
                  rw [hdec]
                  exact List.mem_append.2 (Or.inr (List.mem_cons_of_mem v h))
                have hqrl := (hiff q).2 hqf
                rw [hrleq, List.mem_cons] at hqrl
                rcases hqrl with rfl | hqr
                · exact absurd h hvl2
                · exact Or.inl ⟨hqr, fun hc => hp (hc ▸ hqf)⟩)
          (hrl ▸ hB3)
        rw [hlen]
        exact this

/-- **C10**: after every processed step, the FIFO insertion queue holds
exactly the currently resident pages, each exactly once, in insertion
order (it is a suffix of the chronological fault sequence); and the LRU
recency list holds exactly the currently resident pages, each exactly
once, ordered by last access with the least recently accessed page at
the head. -/
theorem c10_fifo_lru_bookkeeping (refs : List Int) (F k : Nat) (hF : 1 ≤ F)
    (hk : k ≤ refs.length) :
    ((simulateSteps (mkSimulator (refs.map Page.int) F "fifo") k).dataStructures.queue.Nodup ∧
     (∀ q, q ∈ (simulateSteps (mkSimulator (refs.map Page.int) F "fifo") k).dataStructures.queue
        ↔ q ∈ (simulateSteps (mkSimulator (refs.map Page.int) F "fifo") k).frames) ∧
     (simulateSteps (mkSimulator (refs.map Page.int) F "fifo") k).dataStructures.queue <:+
       faultSeq (simulateSteps (mkSimulator (refs.map Page.int) F "fifo") k).history) ∧
    ((simulateSteps (mkSimulator (refs.map Page.int) F "lru") k).dataStructures.recencyList.Nodup ∧
     (∀ q, q ∈ (simulateSteps
          (mkSimulator (refs.map Page.int) F "lru") k).dataStructures.recencyList
        ↔ q ∈ (simulateSteps (mkSimulator (refs.map Page.int) F "lru") k).frames) ∧
     (simulateSteps (mkSimulator (refs.map Page.int) F "lru") k).dataStructures.recencyList.Pairwise
       (fun a b => lastAccess (refs.map Page.int) k a < lastAccess (refs.map Page.int) k b)) := by
  have hnant : Page.nan ∉ (refs.map Page.int).take k := by
    intro hc
    have hm := List.take_subset k (refs.map Page.int) hc
    obtain ⟨n, _, hn⟩ := List.mem_map.1 hm
    exact Page.noConfusion hn
  have hlentake : ((refs.map Page.int).take k).length = k := by
    rw [List.length_take, List.length_map]
    omega
  constructor
  · have hds : (mkSimulator (refs.map Page.int) F "fifo").dataStructures.queue = [] := rfl
    have := fifo_invariant ((refs.map Page.int).take k)
      (mkSimulator (refs.map Page.int) F "fifo") 0
      (by simp) (by simp [hF]) hnant
      (by simp) (by simp) (by rw [hds]; exact List.nodup_nil)
      (fun q => by
        rw [hds]
        simp)
      (by
        rw [hds]
        simp [faultSeq])
    unfold simulateSteps
    rw [mkSimulator_referenceString]
    exact ⟨this.2.2.1, this.2.2.2.1, this.2.2.2.2⟩
  · have hds : (mkSimulator (refs.map Page.int) F "lru").dataStructures.recencyList = [] := rfl
    have hpre : ∀ j, j < ((refs.map Page.int).take k).length →
        (refs.map Page.int).getD (0 + j) Page.nan
          = ((refs.map Page.int).take k).getD j Page.nan := by
      intro j hj
      rw [hlentake] at hj
      rw [Nat.zero_add]
      have hjl : j < (refs.map Page.int).length := by
        rw [List.length_map]
        omega
      rw [List.getD_eq_get _ _ hjl, List.getD_eq_get _ _ (by rw [hlentake]; omega)]
      simp [List.get_eq_getElem, List.getElem_take]
    have := lru_invariant ((refs.map Page.int).take k) (refs.map Page.int) 0
      (mkSimulator (refs.map Page.int) F "lru")
      (by simp) (by simp [hF]) hnant hpre
      (by simp) (by simp) (by rw [hds]; exact List.nodup_nil)
      (fun q => by
        rw [hds]
        simp)
      (by
        rw [hds]
        exact List.Pairwise.nil)
    unfold simulateSteps
    rw [mkSimulator_referenceString]
    refine ⟨this.2.2.1, this.2.2.2.1, ?_⟩
    have hfin := this.2.2.2.2
    rw [hlentake, Nat.zero_add] at hfin
    exact hfin

/-- Witness for `c10_fifo_lru_bookkeeping` at a concrete run. -/
theorem c10_fifo_lru_bookkeeping_witness :
    ((simulateSteps (mkSimulator ([1, 2, 1, 3].map Page.int) 2 "fifo") 4).dataStructures.queue.Nodup ∧
     (∀ q, q ∈ (simulateSteps
          (mkSimulator ([1, 2, 1, 3].map Page.int) 2 "fifo") 4).dataStructures.queue
        ↔ q ∈ (simulateSteps (mkSimulator ([1, 2, 1, 3].map Page.int) 2 "fifo") 4).frames) ∧
     (simulateSteps (mkSimulator ([1, 2, 1, 3].map Page.int) 2 "fifo") 4).dataStructures.queue <:+
       faultSeq (simulateSteps (mkSimulator ([1, 2, 1, 3].map Page.int) 2 "fifo") 4).history) ∧
    ((simulateSteps
        (mkSimulator ([1, 2, 1, 3].map Page.int) 2 "lru") 4).dataStructures.recencyList.Nodup ∧
     (∀ q, q ∈ (simulateSteps
          (mkSimulator ([1, 2, 1, 3].map Page.int) 2 "lru") 4).dataStructures.recencyList
        ↔ q ∈ (simulateSteps (mkSimulator ([1, 2, 1, 3].map Page.int) 2 "lru") 4).frames) ∧
     (simulateSteps
        (mkSimulator ([1, 2, 1, 3].map Page.int) 2 "lru") 4).dataStructures.recencyList.Pairwise
       (fun a b => lastAccess ([1, 2, 1, 3].map Page.int) 4 a
          < lastAccess ([1, 2, 1, 3].map Page.int) 4 b)) :=
  c10_fifo_lru_bookkeeping [1, 2, 1, 3] 2 4 (by decide) (by decide)

/-!
## Abstract demand-paging runs and Belady optimality (claim C6)
-/

/-- Position of the first occurrence of `q` in the remaining reference
suffix (`⊤` when `q` is never referenced again, the current reference
being position `0`). -/
def nextUse (l : List Page) (q : Page) : WithTop Nat :=
  match l.findIdx? (fun p => decide (p = q)) with
  | some i => (i : WithTop Nat)
  | none => ⊤

theorem nextUse_cons_self (q : Page) (l : List Page) : nextUse (q :: l) q = 0 := by
  unfold nextUse
  rw [List.findIdx?_cons]
  simp

theorem nextUse_cons_ne (r q : Page) (l : List Page) (h : r ≠ q) :
    nextUse (r :: l) q = nextUse l q + 1 := by
  unfold nextUse
  rw [List.findIdx?_cons]
  simp only [decide_eq_true_eq, h, if_false, List.findIdx?_succ]
  cases hf : l.findIdx? (fun p => decide (p = q)) with
  | none => rfl
  | some i =>
    simp only [Option.map_some']
    rfl

theorem nextUse_le_iff_cons (r a b : Page) (l : List Page) (ha : r ≠ a) (hb : r ≠ b) :
    nextUse (r :: l) a ≤ nextUse (r :: l) b ↔ nextUse l a ≤ nextUse l b := by
  rw [nextUse_cons_ne r a l ha, nextUse_cons_ne r b l hb]
  exact WithTop.add_le_add_iff_right (by simp)

theorem nextUse_eq_zero_head (r q : Page) (l : List Page) (h : nextUse (r :: l) q = 0) :
    r = q := by
  by_contra hc
  rw [nextUse_cons_ne r q l hc] at h
  cases hnu : nextUse l q with
  | top =>
    rw [hnu] at h
    exact absurd h (by decide)
  | coe i =>
    rw [hnu] at h
    have h2 : ((i + 1 : Nat) : WithTop Nat) = 0 := by
      rw [← h]
      push_cast
      rfl
    exact absurd (by exact_mod_cast h2) (Nat.succ_ne_zero i)

/-- Shift a relative next-use position by `c` (absolute index). -/
def shiftTop (c : Nat) (o : WithTop Nat) : WithTop Nat := o.map (fun n => c + n)

theorem shiftTop_le_iff (c : Nat) (x y : WithTop Nat) :
    shiftTop c x ≤ shiftTop c y ↔ x ≤ y := by
  cases x with
  | top =>
    cases y with
    | top => simp [shiftTop]
    | coe n =>
      constructor
      · intro h
        exact absurd h (by simp [shiftTop])
      · intro h
        exact absurd h (by simp)
  | coe n =>
    cases y with
    | top => simp [shiftTop]
    | coe m =>
      show ((c + n : Nat) : WithTop Nat) ≤ ((c + m : Nat) : WithTop Nat) ↔ _
      rw [Nat.cast_le, WithTop.coe_le_coe]
      omega

theorem nextOccAux_shift : ∀ (l : List Page) (i t : Nat) (q : Page), t < i →
    nextOccurrenceAux l i t q = shiftTop i (nextUse l q) := by
  intro l
  induction l with
  | nil => intro i t q _; rfl
  | cons p rest ih =>
    intro i t q hti
    unfold nextOccurrenceAux
    by_cases hp : p = q
    · rw [if_pos ⟨hp, hti⟩, hp, nextUse_cons_self]
      show _ = ((i + 0 : Nat) : WithTop Nat)
      rw [Nat.add_zero]
    · rw [if_neg (by rintro ⟨hc, -⟩; exact hp hc)]
      rw [ih (i + 1) t q (by omega), nextUse_cons_ne p q rest hp]
      cases hnu : nextUse rest q with
      | top => rfl
      | coe n =>
        show ((i + 1 + n : Nat) : WithTop Nat) = shiftTop i ((n : WithTop Nat) + 1)
        have : ((n : WithTop Nat) + 1) = ((n + 1 : Nat) : WithTop Nat) := by push_cast; rfl
        rw [this]
        show _ = ((i + (n + 1) : Nat) : WithTop Nat)
        congr 1
        omega

theorem nextOccAux_drop : ∀ (d : Nat) (l : List Page) (i t : Nat) (q : Page),
    i + d = t + 1 →
    nextOccurrenceAux l i t q = shiftTop (t + 1) (nextUse (l.drop d) q) := by
  intro d
  induction d with
  | zero =>
    intro l i t q hi
    have : i = t + 1 := by omega
    subst this
    rw [List.drop_zero]
    exact nextOccAux_shift l (t + 1) t q (by omega)
  | succ d ih =>
    intro l i t q hi
    cases l with
    | nil => rfl
    | cons p rest =>
      show nextOccurrenceAux (p :: rest) i t q = shiftTop (t + 1) (nextUse (rest.drop d) q)
      unfold nextOccurrenceAux
      rw [if_neg (by rintro ⟨-, hc⟩; omega)]
      exact ih rest (i + 1) t q (by omega)

theorem nextOcc_drop (refs : List Page) (t : Nat) (q : Page) :
    nextOccInRefs refs t q = shiftTop (t + 1) (nextUse (refs.drop (t + 1)) q) := by
  unfold nextOccInRefs
  exact nextOccAux_drop (t + 1) refs 0 t q (by omega)

theorem nextOcc_le_iff_drop (refs : List Page) (t : Nat) (a b : Page) :
    nextOccInRefs refs t a ≤ nextOccInRefs refs t b ↔
      nextUse (refs.drop (t + 1)) a ≤ nextUse (refs.drop (t + 1)) b := by
  rw [nextOcc_drop, nextOcc_drop, shiftTop_le_iff]

/-- An abstract demand-paging run over the remaining reference suffix:
from cache `M` (capacity `F`), serving the list with exactly `k` faults.
Hits leave the cache unchanged; faults load into a free slot when one
exists and otherwise replace an arbitrary resident page.  Every concrete
algorithm of the simulator produces such a run. -/
inductive Run (F : Nat) : List Page → Finset Page → Nat → Prop where
  | nil : ∀ M, Run F [] M 0
  | hit : ∀ p l M k, p ∈ M → Run F l M k → Run F (p :: l) M k
  | load : ∀ p l M k, p ∉ M → M.card < F → Run F l (insert p M) k → Run F (p :: l) M (k + 1)
  | evict : ∀ p l M k g, p ∉ M → M.card = F → g ∈ M →
      Run F l (insert p (M.erase g)) k → Run F (p :: l) M (k + 1)

theorem swap_card {M : Finset Page} {x y : Page} (hx : x ∈ M) (hy : y ∉ M) :
    (insert y (M.erase x)).card = M.card := by
  rw [Finset.card_insert_of_not_mem (by
    intro hc
    exact hy (Finset.mem_of_mem_erase hc))]
  rw [Finset.card_erase_of_mem hx]
  have : 1 ≤ M.card := Finset.card_pos.2 ⟨x, hx⟩
  omega

theorem mem_swap_of_mem {M : Finset Page} {x y p : Page} (hp : p ∈ M) (hpx : p ≠ x) :
    p ∈ insert y (M.erase x) :=
  Finset.mem_insert_of_mem (Finset.mem_erase.2 ⟨hpx, hp⟩)

theorem not_mem_swap {M : Finset Page} {x y p : Page} (hp : p ∉ M) (hpy : p ≠ y) :
    p ∉ insert y (M.erase x) := by
  intro hc
  rcases Finset.mem_insert.1 hc with rfl | hc
  · exact hpy rfl
  · exact hp (Finset.mem_of_mem_erase hc)

theorem insert_erase_comm {M : Finset Page} {a b : Page} (h : a ≠ b) :
    insert a (M.erase b) = (insert a M).erase b := by
  ext z
  simp only [Finset.mem_insert, Finset.mem_erase]
  constructor
  · rintro (rfl | ⟨hzb, hzM⟩)
    · exact ⟨h, Or.inl rfl⟩
    · exact ⟨hzb, Or.inr hzM⟩
  · rintro ⟨hzb, rfl | hzM⟩
    · exact Or.inl rfl
    · exact Or.inr ⟨hzb, hzM⟩

theorem swap_ins_comm {M : Finset Page} {x y p : Page} (hpx : p ≠ x) :
    insert p (insert y (M.erase x)) = insert y ((insert p M).erase x) := by
  ext z
  simp only [Finset.mem_insert, Finset.mem_erase]
  constructor
  · rintro (rfl | rfl | ⟨hzx, hzM⟩)
    · exact Or.inr ⟨hpx, Or.inl rfl⟩
    · exact Or.inl rfl
    · exact Or.inr ⟨hzx, Or.inr hzM⟩
  · rintro (rfl | ⟨hzx, rfl | hzM⟩)
    · exact Or.inr (Or.inl rfl)
    · exact Or.inl rfl
    · exact Or.inr (Or.inr ⟨hzx, hzM⟩)

theorem swap_double {M : Finset Page} {x y g : Page} (hg : g ∈ M) (hy : y ∉ M)
    (hxg : x ≠ g) (hyx : y ≠ x) :
    insert y (M.erase x) = insert g ((insert y (M.erase g)).erase x) := by
  have hgy : g ≠ y := fun hc => hy (hc ▸ hg)
  ext z
  simp only [Finset.mem_insert, Finset.mem_erase]
  constructor
  · rintro (rfl | ⟨hzx, hzM⟩)
    · exact Or.inr ⟨hyx, Or.inl rfl⟩
    · by_cases hzg : z = g
      · exact Or.inl hzg
      · exact Or.inr ⟨hzx, Or.inr ⟨hzg, hzM⟩⟩
  · rintro (rfl | ⟨hzx, rfl | ⟨hzg, hzM⟩⟩)
    · exact Or.inr ⟨fun hc => hxg hc.symm, hg⟩
    · exact Or.inl rfl
    · exact Or.inr ⟨hzx, hzM⟩

theorem swap_swap {M : Finset Page} {x y g p : Page} (hp : p ∉ M) (hg : g ∈ M)
    (hy : y ∉ M) (hx : x ∈ M) :
    insert p ((insert y (M.erase x)).erase g) = insert y ((insert p (M.erase g)).erase x) := by
  ext z
  simp only [Finset.mem_insert, Finset.mem_erase]
  constructor
  · rintro (rfl | ⟨hzg, rfl | ⟨hzx, hzM⟩⟩)
    · exact Or.inr ⟨fun hc => hp (hc ▸ hx), Or.inl rfl⟩
    · exact Or.inl rfl
    · exact Or.inr ⟨hzx, Or.inr ⟨hzg, hzM⟩⟩
  · rintro (rfl | ⟨hzx, rfl | ⟨hzg, hzM⟩⟩)
    · exact Or.inr ⟨fun hc => hy (hc ▸ hg), Or.inl rfl⟩
    · exact Or.inl rfl
    · exact Or.inr ⟨hzg, Or.inr ⟨hzx, hzM⟩⟩

/-- The exchange lemma behind Belady optimality.  Given a demand-paging
run from cache `M`, (A) replacing a resident `x` by a non-resident `y`
whose next use comes no later costs no extra fault; (B) an arbitrary
such replacement of a full cache costs at most one extra fault; (C)
dropping one resident page costs at most one extra fault. -/
theorem run_exchange {F : Nat} {l : List Page} {M : Finset Page} {k : Nat}
    (h : Run F l M k) :
    (∀ x y, x ∈ M → y ∉ M → nextUse l y ≤ nextUse l x →
      ∃ k' ≤ k, Run F l (insert y (M.erase x)) k') ∧
    (M.card = F → ∀ x y, x ∈ M → y ∉ M →
      ∃ k' ≤ k + 1, Run F l (insert y (M.erase x)) k') ∧
    (M.card ≤ F → ∀ x, x ∈ M →
      ∃ k' ≤ k + 1, Run F l (M.erase x) k') := by
  induction h with
  | nil M =>
    refine ⟨?_, ?_, ?_⟩
    · intro x y _ _ _
      exact ⟨0, le_refl 0, Run.nil _⟩
    · intro _ x y _ _
      exact ⟨0, by omega, Run.nil _⟩
    · intro _ x _
      exact ⟨0, by omega, Run.nil _⟩
  | hit p l M k hp hrun ih =>
    obtain ⟨ihA, ihB, ihC⟩ := ih
    refine ⟨?_, ?_, ?_⟩
    · intro x y hx hy hcond
      by_cases hpx : p = x
      · exfalso
        subst hpx
        rw [nextUse_cons_self] at hcond
        have h0 : nextUse (p :: l) y = 0 := le_antisymm hcond (zero_le _)
        exact hy ((nextUse_eq_zero_head p y l h0) ▸ hp)
      · have hpy : p ≠ y := fun hc => hy (hc ▸ hp)
        obtain ⟨k', hk', hrun'⟩ := ihA x y hx hy
          ((nextUse_le_iff_cons p y x l hpy hpx).1 hcond)
        exact ⟨k', hk', Run.hit p l _ k' (mem_swap_of_mem hp hpx) hrun'⟩
    · intro hcardF x y hx hy
      by_cases hpx : p = x
      · subst hpx
        have hpy : p ≠ y := fun hc => hy (hc ▸ hp)
        have hnot : p ∉ insert y (M.erase p) := by
          intro hc
          rcases Finset.mem_insert.1 hc with hc | hc
          · exact hpy hc
          · exact (Finset.mem_erase.1 hc).1 rfl
        have hcard' : (insert y (M.erase p)).card = F := by
          rw [swap_card hx hy]
          exact hcardF
        have hmerge : insert p ((insert y (M.erase p)).erase y) = M := by
          rw [Finset.erase_insert (fun hc => hy (Finset.mem_of_mem_erase hc))]
          exact Finset.insert_erase hp
        exact ⟨k + 1, le_refl _, Run.evict p l _ k y hnot hcard'
          (Finset.mem_insert_self _ _) (by rw [hmerge]; exact hrun)⟩
      · obtain ⟨k', hk', hrun'⟩ := ihB hcardF x y hx hy
        exact ⟨k', hk', Run.hit p l _ k' (mem_swap_of_mem hp hpx) hrun'⟩
    · intro hcardle x hx
      by_cases hpx : p = x
      · subst hpx
        have hnot : p ∉ M.erase p := fun hc => (Finset.mem_erase.1 hc).1 rfl
        have hcard' : (M.erase p).card < F := by
          rw [Finset.card_erase_of_mem hp]
          have h1 : 1 ≤ M.card := Finset.card_pos.2 ⟨p, hp⟩
          omega
        exact ⟨k + 1, le_refl _, Run.load p l _ k hnot hcard'
          (by rw [Finset.insert_erase hp]; exact hrun)⟩
      · obtain ⟨k', hk', hrun'⟩ := ihC hcardle x hx
        exact ⟨k', hk', Run.hit p l _ k' (Finset.mem_erase.2 ⟨hpx, hp⟩) hrun'⟩
  | load p l M k hp hcard hrun ih =>
    obtain ⟨ihA, ihB, ihC⟩ := ih
    refine ⟨?_, ?_, ?_⟩
    · intro x y hx hy hcond
      have hpx : p ≠ x := fun hc => hp (hc ▸ hx)
      by_cases hpy : p = y
      · subst hpy
        have hcardins : (insert p M).card ≤ F := by
          rw [Finset.card_insert_of_not_mem hp]
          omega
        obtain ⟨k', hk', hrun'⟩ := ihC hcardins x (Finset.mem_insert_of_mem hx)
        rw [← insert_erase_comm hpx] at hrun'
        exact ⟨k', by omega, Run.hit p l _ k' (Finset.mem_insert_self _ _) hrun'⟩
      · have hnotM' : p ∉ insert y (M.erase x) := not_mem_swap hp hpy
        have hcM' : (insert y (M.erase x)).card < F := by
          rw [swap_card hx hy]
          exact hcard
        have hyins : y ∉ insert p M := by
          intro hc
          rcases Finset.mem_insert.1 hc with hc | hc
          · exact hpy hc.symm
          · exact hy hc
        obtain ⟨k', hk', hrun'⟩ := ihA x y (Finset.mem_insert_of_mem hx) hyins
          ((nextUse_le_iff_cons p y x l hpy hpx).1 hcond)
        rw [← swap_ins_comm hpx] at hrun'
        exact ⟨k' + 1, by omega, Run.load p l _ k' hnotM' hcM' hrun'⟩
    · intro hcardF x y _ _
      exact absurd hcardF (by omega)
    · intro hcardle x hx
      have hpx : p ≠ x := fun hc => hp (hc ▸ hx)
      have hnot : p ∉ M.erase x := fun hc => hp (Finset.mem_of_mem_erase hc)
      have hcM' : (M.erase x).card < F := by
        rw [Finset.card_erase_of_mem hx]
        have h1 : 1 ≤ M.card := Finset.card_pos.2 ⟨x, hx⟩
        omega
      have hcins : (insert p M).card ≤ F := by
        rw [Finset.card_insert_of_not_mem hp]
        omega
      obtain ⟨k', hk', hrun'⟩ := ihC hcins x (Finset.mem_insert_of_mem hx)
      rw [← insert_erase_comm hpx] at hrun'
      exact ⟨k' + 1, by omega, Run.load p l _ k' hnot hcM' hrun'⟩
  | evict p l M k g hp hcard hg hrun ih =>
    obtain ⟨ihA, ihB, ihC⟩ := ih
    have hpg : p ≠ g := fun hc => hp (hc ▸ hg)
    refine ⟨?_, ?_, ?_⟩
    · intro x y hx hy hcond
      have hpx : p ≠ x := fun hc => hp (hc ▸ hx)
      by_cases hpy : p = y
      · subst hpy
        by_cases hgx : g = x
        · subst hgx
          exact ⟨k, by omega, Run.hit p l _ k (Finset.mem_insert_self _ _) hrun⟩
        · have hcN : (insert p (M.erase g)).card = F := by
            rw [swap_card hg hp]
            exact hcard
          have hxN : x ∈ insert p (M.erase g) :=
            mem_swap_of_mem hx (fun hc => hgx hc.symm)
          have hgN : g ∉ insert p (M.erase g) := by
            intro hc
            rcases Finset.mem_insert.1 hc with hc | hc
            · exact hpg hc.symm
            · exact (Finset.mem_erase.1 hc).1 rfl
          obtain ⟨k', hk', hrun'⟩ := ihB hcN x g hxN hgN
          rw [← swap_double hg hp (fun hc => hgx hc.symm) hpx] at hrun'
          exact ⟨k', by omega, Run.hit p l _ k' (Finset.mem_insert_self _ _) hrun'⟩
      · have hnotM' : p ∉ insert y (M.erase x) := not_mem_swap hp hpy
        have hcM' : (insert y (M.erase x)).card = F := by
          rw [swap_card hx hy]
          exact hcard
        by_cases hgx : g = x
        · subst hgx
          have hid : insert p ((insert y (M.erase g)).erase y) = insert p (M.erase g) := by
            rw [Finset.erase_insert (fun hc => hy (Finset.mem_of_mem_erase hc))]
          exact ⟨k + 1, le_refl _, Run.evict p l _ k y hnotM' hcM'
            (Finset.mem_insert_self _ _) (by rw [hid]; exact hrun)⟩
        · have hgM' : g ∈ insert y (M.erase x) := mem_swap_of_mem hg hgx
          have hxN : x ∈ insert p (M.erase g) :=
            mem_swap_of_mem hx (fun hc => hgx hc.symm)
          have hyN : y ∉ insert p (M.erase g) := not_mem_swap hy (fun hc => hpy hc.symm)
          obtain ⟨k', hk', hrun'⟩ := ihA x y hxN hyN
            ((nextUse_le_iff_cons p y x l hpy hpx).1 hcond)
          rw [← swap_swap hp hg hy hx] at hrun'
          exact ⟨k' + 1, by omega, Run.evict p l _ k' g hnotM' hcM' hgM' hrun'⟩
    · intro _ x y hx hy
      have hpx : p ≠ x := fun hc => hp (hc ▸ hx)
      by_cases hpy : p = y
      · subst hpy
        by_cases hgx : g = x
        · subst hgx
          exact ⟨k, by omega, Run.hit p l _ k (Finset.mem_insert_self _ _) hrun⟩
        · have hcN : (insert p (M.erase g)).card = F := by
            rw [swap_card hg hp]
            exact hcard
          have hxN : x ∈ insert p (M.erase g) :=
            mem_swap_of_mem hx (fun hc => hgx hc.symm)
          have hgN : g ∉ insert p (M.erase g) := by
            intro hc
            rcases Finset.mem_insert.1 hc with hc | hc
            · exact hpg hc.symm
            · exact (Finset.mem_erase.1 hc).1 rfl
          obtain ⟨k', hk', hrun'⟩ := ihB hcN x g hxN hgN
          rw [← swap_double hg hp (fun hc => hgx hc.symm) hpx] at hrun'
          exact ⟨k', by omega, Run.hit p l _ k' (Finset.mem_insert_self _ _) hrun'⟩
      · have hnotM' : p ∉ insert y (M.erase x) := not_mem_swap hp hpy
        have hcM' : (insert y (M.erase x)).card = F := by
          rw [swap_card hx hy]
          exact hcard
        by_cases hgx : g = x
        · subst hgx
          have hid : insert p ((insert y (M.erase g)).erase y) = insert p (M.erase g) := by
            rw [Finset.erase_insert (fun hc => hy (Finset.mem_of_mem_erase hc))]
          exact ⟨k + 1, by omega, Run.evict p l _ k y hnotM' hcM'
            (Finset.mem_insert_self _ _) (by rw [hid]; exact hrun)⟩
        · have hgM' : g ∈ insert y (M.erase x) := mem_swap_of_mem hg hgx
          have hcN : (insert p (M.erase g)).card = F := by
            rw [swap_card hg hp]
            exact hcard
          have hxN : x ∈ insert p (M.erase g) :=
            mem_swap_of_mem hx (fun hc => hgx hc.symm)
          have hyN : y ∉ insert p (M.erase g) := not_mem_swap hy (fun hc => hpy hc.symm)
          obtain ⟨k', hk', hrun'⟩ := ihB hcN x y hxN hyN
          rw [← swap_swap hp hg hy hx] at hrun'
          exact ⟨k' + 1, by omega, Run.evict p l _ k' g hnotM' hcM' hgM' hrun'⟩
    · intro hcardle x hx
      have hpx : p ≠ x := fun hc => hp (hc ▸ hx)
      have hnot : p ∉ M.erase x := fun hc => hp (Finset.mem_of_mem_erase hc)
      have hcM' : (M.erase x).card < F := by
        rw [Finset.card_erase_of_mem hx]
        have h1 : 1 ≤ M.card := Finset.card_pos.2 ⟨x, hx⟩
        omega
      by_cases hgx : g = x
      · subst hgx
        exact ⟨k + 1, by omega, Run.load p l _ k hnot hcM' hrun⟩
      · have hcN : (insert p (M.erase g)).card = F := by
          rw [swap_card hg hp]
          exact hcard
        have hxN : x ∈ insert p (M.erase g) :=
          mem_swap_of_mem hx (fun hc => hgx hc.symm)
        have hgN : g ∉ insert p (M.erase g) := by
          intro hc
          rcases Finset.mem_insert.1 hc with hc | hc
          · exact hpg hc.symm
          · exact (Finset.mem_erase.1 hc).1 rfl
        obtain ⟨k', hk', hrun'⟩ := ihB hcN x g hxN hgN
        rw [← swap_double hg hp (fun hc => hgx hc.symm) hpx] at hrun'
        exact ⟨k' + 1, by omega, Run.load p l _ k' hnot hcM' hrun'⟩

/-- The replacement step as a function: overwrite the first strict-equal
occurrence of the victim (no-op when the victim is absent). -/
def jsReplace (frames : List Page) (v p : Page) : List Page :=
  match frames.findIdx? (fun q => Page.seq q v) with
  | some j => frames.set j p
  | none => frames

theorem toFinset_append_one (l : List Page) (p : Page) :
    (l ++ [p]).toFinset = insert p l.toFinset := by
  ext z
  simp [or_comm]

/-- All structural facts about a replacement in a duplicate-free frame
array: the set of resident pages swaps the victim for the new page, and
length, distinctness and `NaN`-freeness are preserved. -/
theorem jsReplace_props (frames : List Page) (v p : Page) (hv : v ∈ frames)
    (hvn : v ≠ Page.nan) (hnd : frames.Nodup) (hp : p ∉ frames) (hpn : p ≠ Page.nan)
    (hnan : Page.nan ∉ frames) :
    (jsReplace frames v p).toFinset = insert p (frames.toFinset.erase v) ∧
    (jsReplace frames v p).Nodup ∧ Page.nan ∉ jsReplace frames v p ∧
    (jsReplace frames v p).length = frames.length := by
  obtain ⟨l1, l2, hdec, hvl1, hres⟩ := jsReplace_spec frames v p hv hvn
  have hres' : jsReplace frames v p = l1 ++ p :: l2 := hres
  have hvl2 : v ∉ l2 := by
    rw [hdec, List.nodup_append] at hnd
    have := hnd.2.1
    rw [List.nodup_cons] at this
    exact this.1
  have hdisj : ∀ a, a ∈ l1 → a ∈ v :: l2 → False := by
    rw [hdec, List.nodup_append] at hnd
    intro a ha hb
    exact hnd.2.2 ha hb
  have hpl1 : p ∉ l1 := fun hc => hp (by rw [hdec]; exact List.mem_append.2 (Or.inl hc))
  have hpl2 : p ∉ l2 := fun hc => hp (by
    rw [hdec]
    exact List.mem_append.2 (Or.inr (List.mem_cons_of_mem v hc)))
  refine ⟨?_, ?_, ?_, ?_⟩
  · rw [hres']
    ext z
    simp only [List.mem_toFinset, Finset.mem_insert, Finset.mem_erase, List.mem_append,
      List.mem_cons, hdec]
    constructor
    · rintro (h | rfl | h)
      · exact Or.inr ⟨fun hc => hvl1 (hc ▸ h), Or.inl h⟩
      · exact Or.inl rfl
      · exact Or.inr ⟨fun hc => hvl2 (hc ▸ h), Or.inr (Or.inr h)⟩
    · rintro (rfl | ⟨hzv, h | rfl | h⟩)
      · exact Or.inr (Or.inl rfl)
      · exact Or.inl h
      · exact absurd rfl hzv
      · exact Or.inr (Or.inr h)
  · rw [hres']
    rw [hdec, List.nodup_append] at hnd
    rw [List.nodup_append]
    refine ⟨hnd.1, ?_, ?_⟩
    · rw [List.nodup_cons]
      have := hnd.2.1
      rw [List.nodup_cons] at this
      exact ⟨hpl2, this.2⟩
    · intro a ha hb
      rcases List.mem_cons.1 hb with rfl | hb
      · exact hpl1 ha
      · exact hdisj a ha (List.mem_cons_of_mem v hb)
  · rw [hres']
    intro hc
    rcases List.mem_append.1 hc with h | h
    · exact hnan (by rw [hdec]; exact List.mem_append.2 (Or.inl h))
    · rcases List.mem_cons.1 h with h | h
      · exact hpn h.symm
      · exact hnan (by
          rw [hdec]
          exact List.mem_append.2 (Or.inr (List.mem_cons_of_mem v h)))
  · rw [hres', hdec]
    simp

/-- The clock scan on a full, duplicate-free frame array with an
in-range pointer always selects a resident victim and leaves the pointer
in range (any fuel of at least `F + 1` inspections suffices). -/
theorem clockScan_full (frames : List Page) (flags : List (Page × Bool)) (ptr F fuel : Nat)
    (hlen : frames.length = F) (hF : 1 ≤ F) (hnd : frames.Nodup) (hptr : ptr < F)
    (hfuel : F + 1 ≤ fuel) :
    ∃ v fl2 ptr2, clockScan fuel frames flags ptr = some (some v, fl2, ptr2) ∧
      v ∈ frames ∧ ptr2 < F := by
  have hmem : ∀ k, frames.getD ((ptr + k) % F) Page.nan ∈ frames := by
    intro k
    have hk : (ptr + k) % F < frames.length := by
      rw [hlen]
      exact Nat.mod_lt _ (by omega)
    rw [List.getD_eq_get _ _ hk]
    exact List.get_mem _ _ _
  by_cases hex : ∃ j, j < F ∧ flagGet flags (frames.getD ((ptr + j) % F) Page.nan) = false
  · have hk := Nat.find_spec hex
    have hmin : ∀ j, j < Nat.find hex →
        flagGet flags (frames.getD ((ptr + j) % F) Page.nan) = true := by
      intro j hj
      have h := Nat.find_min hex hj
      have hjF : j < F := hj.trans hk.1
      cases hcase : flagGet flags (frames.getD ((ptr + j) % F) Page.nan)
      · exact absurd ⟨hjF, hcase⟩ h
      · rfl
    obtain ⟨flags', h1, _⟩ := clockScan_reaches (Nat.find hex) frames flags ptr F fuel
      hlen hF hnd hptr (le_of_lt hk.1) hmin (fun _ => hk.2) (by omega)
    exact ⟨_, flags', _, h1, hmem _, Nat.mod_lt _ (by omega)⟩
  · push_neg at hex
    have hall : ∀ j, j < F → flagGet flags (frames.getD ((ptr + j) % F) Page.nan) = true := by
      intro j hj
      cases hcase : flagGet flags (frames.getD ((ptr + j) % F) Page.nan)
      · exact absurd hcase (hex j hj)
      · rfl
    obtain ⟨flags', h1, _⟩ := clockScan_reaches F frames flags ptr F fuel
      hlen hF hnd hptr le_rfl (fun j hj => hall j hj)
      (fun hc => absurd hc (lt_irrefl F)) (by omega)
    exact ⟨_, flags', _, h1, hmem _, Nat.mod_lt _ (by omega)⟩

theorem processPage_opt_hit (s : Simulator) (p : Page) (i : Nat)
    (halg : s.algorithm = "optimal") (hmem : p ∈ s.frames) :
    (processPage s p i).frames = s.frames ∧
    (processPage s p i).dataStructures = s.dataStructures := by
  have hc : s.frames.contains p = true := by simpa using hmem
  simp [processPage, updateDataStructures, hc, hmem, halg]

theorem processPage_opt_room (s : Simulator) (p : Page) (i : Nat)
    (halg : s.algorithm = "optimal") (hmem : p ∉ s.frames)
    (hroom : s.frames.length < s.numFrames) :
    (processPage s p i).frames = s.frames ++ [p] ∧
    (processPage s p i).dataStructures = s.dataStructures := by
  have hc : s.frames.contains p = false := by simpa using hmem
  simp [processPage, updateDataStructures, hc, hmem, halg, hroom]

theorem selectPTR_opt (s : Simulator) (i : Nat) (halg : s.algorithm = "optimal") :
    selectPageToReplace s i = (selectOptimalPage s i, s) := by
  unfold selectPageToReplace
  rw [halg, if_neg (by decide), if_neg (by decide), if_pos rfl]

theorem selectPTR_clock (s : Simulator) (i : Nat) (halg : s.algorithm = "clock")
    (vo : Option Page) (fl2 : List (Page × Bool)) (ptr2 : Nat)
    (hscan : clockScan (2 * s.frames.length + 1) s.frames s.dataStructures.referenceFlags
      s.dataStructures.clockPointer = some (vo, fl2, ptr2)) :
    selectPageToReplace s i =
      (vo, { s with dataStructures :=
        { s.dataStructures with referenceFlags := fl2, clockPointer := ptr2 } }) := by
  unfold selectPageToReplace
  rw [halg, if_neg (by decide), if_neg (by decide), if_neg (by decide), if_pos rfl, hscan]

theorem processPage_opt_full (s : Simulator) (p : Page) (i : Nat)
    (halg : s.algorithm = "optimal") (hmem : p ∉ s.frames)
    (hfull : ¬ s.frames.length < s.numFrames)
    (v : Page) (hsel : selectOptimalPage s i = some v) :
    (processPage s p i).frames = jsReplace s.frames v p ∧
    (processPage s p i).dataStructures = s.dataStructures := by
  have hc : s.frames.contains p = false := by simpa using hmem
  simp only [processPage, hc, hmem, Bool.false_eq_true, if_false, hfull]
  set sf : Simulator := { s with pageFaults := s.pageFaults + 1 } with hsf
  have halg2 : sf.algorithm = "optimal" := halg
  have hsel2 : selectOptimalPage sf i = some v := hsel
  rw [selectPTR_opt sf i halg2, hsel2]
  simp [updateDataStructures, halg, jsReplace, hsf]
  cases hidx : s.frames.findIdx? (fun q => Page.seq q v) <;> simp [hidx]

theorem processPage_clock_hit (s : Simulator) (p : Page) (i : Nat)
    (halg : s.algorithm = "clock") (hmem : p ∈ s.frames) :
    (processPage s p i).frames = s.frames ∧
    (processPage s p i).dataStructures.clockPointer = s.dataStructures.clockPointer := by
  have hc : s.frames.contains p = true := by simpa using hmem
  simp [processPage, updateDataStructures, hc, hmem, halg]

theorem processPage_clock_room (s : Simulator) (p : Page) (i : Nat)
    (halg : s.algorithm = "clock") (hmem : p ∉ s.frames)
    (hroom : s.frames.length < s.numFrames) :
    (processPage s p i).frames = s.frames ++ [p] ∧
    (processPage s p i).dataStructures.clockPointer = s.dataStructures.clockPointer := by
  have hc : s.frames.contains p = false := by simpa using hmem
  simp [processPage, updateDataStructures, hc, hmem, halg, hroom]

theorem processPage_clock_full (s : Simulator) (p : Page) (i : Nat)
    (halg : s.algorithm = "clock") (hmem : p ∉ s.frames)
    (hfull : ¬ s.frames.length < s.numFrames)
    (v : Page) (fl2 : List (Page × Bool)) (ptr2 : Nat)
    (hscan : clockScan (2 * s.frames.length + 1) s.frames s.dataStructures.referenceFlags
      s.dataStructures.clockPointer = some (some v, fl2, ptr2)) :
    (processPage s p i).frames = jsReplace s.frames v p ∧
    (processPage s p i).dataStructures.clockPointer = ptr2 := by
  have hc : s.frames.contains p = false := by simpa using hmem
  simp only [processPage, hc, hmem, Bool.false_eq_true, if_false, hfull]
  set sf : Simulator := { s with pageFaults := s.pageFaults + 1 } with hsf
  have halg2 : sf.algorithm = "clock" := halg
  have hscan2 : clockScan (2 * sf.frames.length + 1) sf.frames
      sf.dataStructures.referenceFlags sf.dataStructures.clockPointer
      = some (some v, fl2, ptr2) := hscan
  rw [selectPTR_clock sf i halg2 (some v) fl2 ptr2 hscan2]
  simp [updateDataStructures, halg, jsReplace, hsf]
  cases hidx : s.frames.findIdx? (fun q => Page.seq q v) <;> simp [hidx]

/-- The implemented FIFO simulation is an abstract demand-paging run:
its fault counter counts exactly the faults of a `Run` derivation. -/
theorem fifo_run : ∀ (l : List Page) (s : Simulator) (i : Nat),
    s.algorithm = "fifo" → 1 ≤ s.numFrames → Page.nan ∉ l →
    s.frames.Nodup → Page.nan ∉ s.frames →
    s.dataStructures.queue.Nodup →
    (∀ q, q ∈ s.dataStructures.queue ↔ q ∈ s.frames) →
    s.dataStructures.queue <:+ faultSeq s.history →
    s.frames.length ≤ s.numFrames →
    ∃ k, Run s.numFrames l s.frames.toFinset k ∧
      (processList s i l).pageFaults = s.pageFaults + k := by
  intro l
  induction l with
  | nil =>
    intro s i _ _ _ _ _ _ _ _ _
    exact ⟨0, Run.nil _, by simp [processList]⟩
  | cons p rest ih =>
    intro s i halg hF hnanl hnd hnan hqnd hiff hsuf hlen
    have hpnan : p ≠ Page.nan := fun hc => hnanl (hc ▸ List.mem_cons_self p rest)
    have hnanr : Page.nan ∉ rest := fun hc => hnanl (List.mem_cons_of_mem p hc)
    have hinv := fifo_invariant [p] s i halg hF (by
      intro hc
      rcases List.mem_cons.1 hc with hc | hc
      · exact hpnan hc.symm
      · exact absurd hc (List.not_mem_nil _)) hnd hnan hqnd hiff hsuf
    have hstep1 : processList s i [p] = processPage s p i := rfl
    rw [hstep1] at hinv
    obtain ⟨hnd1, hnan1, hqnd1, hiff1, hsuf1⟩ := hinv
    obtain ⟨_, hnf, hal, hfaults, _, _, hlendisj⟩ := processPage_spec s p i
    have hlen1 : (processPage s p i).frames.length ≤ (processPage s p i).numFrames := by
      rw [hnf]
      rcases hlendisj with h | ⟨h, h2⟩ <;> omega
    obtain ⟨k, hrun, hfl⟩ := ih (processPage s p i) (i + 1) (hal ▸ halg) (hnf ▸ hF)
      hnanr hnd1 hnan1 hqnd1 hiff1 hsuf1 hlen1
    rw [hnf] at hrun
    have hstep : processList s i (p :: rest) = processList (processPage s p i) (i + 1) rest :=
      rfl
    by_cases hp : p ∈ s.frames
    · obtain ⟨hfr, _⟩ := processPage_fifo_hit s p i halg hp
      rw [hfr] at hrun
      refine ⟨k, Run.hit p rest _ k (List.mem_toFinset.2 hp) hrun, ?_⟩
      have hcp : s.frames.contains p = true := by simpa using hp
      rw [hstep, hfl, hfaults, hcp]
      simp
    · have hcp : s.frames.contains p = false := by simpa using hp
      by_cases hroom : s.frames.length < s.numFrames
      · obtain ⟨hfr, _⟩ := processPage_fifo_room s p i halg hp hroom
        rw [hfr, toFinset_append_one] at hrun
        refine ⟨k + 1, Run.load p rest _ k (fun hc => hp (List.mem_toFinset.1 hc))
          (by rw [List.toFinset_card_of_nodup hnd]; exact hroom) hrun, ?_⟩
        rw [hstep, hfl, hfaults, hcp]
        simp
        omega
      · have hqne : s.dataStructures.queue ≠ [] := by
          intro hc
          have hfe : s.frames = [] := by
            cases hfr : s.frames with
            | nil => rfl
            | cons x xs =>
              exfalso
              have hx : x ∈ s.dataStructures.queue := (hiff x).2 (by
                rw [hfr]
                exact List.mem_cons_self x xs)
              rw [hc] at hx
              exact List.not_mem_nil x hx
          rw [hfe] at hroom
          simp at hroom
          omega
        obtain ⟨v, qrest, hq⟩ : ∃ v qrest, s.dataStructures.queue = v :: qrest := by
          cases hqc : s.dataStructures.queue with
          | nil => exact absurd hqc hqne
          | cons v qrest => exact ⟨v, qrest, rfl⟩
        have hvf : v ∈ s.frames := (hiff v).1 (by
          rw [hq]
          exact List.mem_cons_self v qrest)
        have hvn : v ≠ Page.nan := fun hc => hnan (hc ▸ hvf)
        obtain ⟨hfr, _⟩ := processPage_fifo_full s p i halg hp hroom v qrest hq
        have hfr' : (processPage s p i).frames = jsReplace s.frames v p := hfr
        obtain ⟨htf, _, _, _⟩ := jsReplace_props s.frames v p hvf hvn hnd hp hpnan hnan
        rw [hfr', htf] at hrun
        have hcardF : s.frames.toFinset.card = s.numFrames := by
          rw [List.toFinset_card_of_nodup hnd]
          omega
        refine ⟨k + 1, Run.evict p rest _ k v (fun hc => hp (List.mem_toFinset.1 hc))
          hcardF (List.mem_toFinset.2 hvf) hrun, ?_⟩
        rw [hstep, hfl, hfaults, hcp]
        simp
        omega

theorem lru_filter_mem (A : List Page) (p : Page) (hp : p ≠ Page.nan) (hnd : A.Nodup) :
    ((A.filter (fun q => !(Page.seq q p))) ++ [p]).Nodup ∧
    (∀ q, q ∈ (A.filter (fun q => !(Page.seq q p))) ++ [p] ↔ (q ∈ A ∧ q ≠ p) ∨ q = p) := by
  have hmemf : ∀ q, q ∈ A.filter (fun r => !(Page.seq r p)) ↔ q ∈ A ∧ q ≠ p := by
    intro q
    rw [List.mem_filter]
    constructor
    · rintro ⟨hm, hpred⟩
      refine ⟨hm, ?_⟩
      rw [seq_eq_decide q p hp] at hpred
      simpa using hpred
    · rintro ⟨hm, hne⟩
      refine ⟨hm, ?_⟩
      rw [seq_eq_decide q p hp]
      simpa using hne
  constructor
  · rw [List.nodup_append]
    refine ⟨(List.filter_sublist A).nodup hnd, List.nodup_singleton p, ?_⟩
    intro a ha hb
    rw [List.mem_singleton] at hb
    exact ((hmemf a).1 ha).2 hb
  · intro q
    rw [List.mem_append, List.mem_singleton, hmemf q]

/-- The implemented LRU simulation is an abstract demand-paging run. -/
theorem lru_run : ∀ (l : List Page) (s : Simulator) (i : Nat),
    s.algorithm = "lru" → 1 ≤ s.numFrames → Page.nan ∉ l →
    s.frames.Nodup → Page.nan ∉ s.frames →
    s.dataStructures.recencyList.Nodup →
    (∀ q, q ∈ s.dataStructures.recencyList ↔ q ∈ s.frames) →
    s.frames.length ≤ s.numFrames →
    ∃ k, Run s.numFrames l s.frames.toFinset k ∧
      (processList s i l).pageFaults = s.pageFaults + k := by
  intro l
  induction l with
  | nil =>
    intro s i _ _ _ _ _ _ _ _
    exact ⟨0, Run.nil _, by simp [processList]⟩
  | cons p rest ih =>
    intro s i halg hF hnanl hnd hnan hrnd hiff hlen
    have hpnan : p ≠ Page.nan := fun hc => hnanl (hc ▸ List.mem_cons_self p rest)
    have hnanr : Page.nan ∉ rest := fun hc => hnanl (List.mem_cons_of_mem p hc)
    obtain ⟨_, hnf, hal, hfaults, _, _, hlendisj⟩ := processPage_spec s p i
    have hstep : processList s i (p :: rest) = processList (processPage s p i) (i + 1) rest :=
      rfl
    by_cases hp : p ∈ s.frames
    · obtain ⟨hfr, hrl⟩ := processPage_lru_hit s p i halg hp
      obtain ⟨hB1, hB2⟩ := lru_filter_mem s.dataStructures.recencyList p hpnan hrnd
      obtain ⟨k, hrun, hfl⟩ := ih (processPage s p i) (i + 1) (hal ▸ halg) (hnf ▸ hF)
        hnanr (hfr ▸ hnd) (hfr ▸ hnan) (hrl ▸ hB1)
        (fun q => by
          rw [hrl, hfr, hB2 q]
          constructor
          · rintro (⟨h1, _⟩ | rfl)
            · exact (hiff q).1 h1
            · exact hp
          · intro hq
            by_cases hqp : q = p
            · exact Or.inr hqp
            · exact Or.inl ⟨(hiff q).2 hq, hqp⟩)
        (by rw [hfr, hnf]; exact hlen)
      rw [hnf, hfr] at hrun
      refine ⟨k, Run.hit p rest _ k (List.mem_toFinset.2 hp) hrun, ?_⟩
      have hcp : s.frames.contains p = true := by simpa using hp
      rw [hstep, hfl, hfaults, hcp]
      simp
    · have hcp : s.frames.contains p = false := by simpa using hp
      by_cases hroom : s.frames.length < s.numFrames
      · obtain ⟨hfr, hrl⟩ := processPage_lru_room s p i halg hp hroom
        obtain ⟨hB1, hB2⟩ := lru_filter_mem s.dataStructures.recencyList p hpnan hrnd
        have hnd' : (s.frames ++ [p]).Nodup := by
          rw [List.nodup_append]
          exact ⟨hnd, List.nodup_singleton p, by
            intro a ha hb
            rw [List.mem_singleton] at hb
            exact hp (hb ▸ ha)⟩
        obtain ⟨k, hrun, hfl⟩ := ih (processPage s p i) (i + 1) (hal ▸ halg) (hnf ▸ hF)
          hnanr (hfr ▸ hnd') (by
            rw [hfr]
            intro hc
            rcases List.mem_append.1 hc with h | h
            · exact hnan h
            · rw [List.mem_singleton] at h
              exact hpnan h.symm)
          (hrl ▸ hB1)
          (fun q => by
            rw [hrl, hfr, hB2 q, List.mem_append, List.mem_singleton]
            constructor
            · rintro (⟨h1, _⟩ | rfl)
              · exact Or.inl ((hiff q).1 h1)
              · exact Or.inr rfl
            · rintro (hq | rfl)
              · exact Or.inl ⟨(hiff q).2 hq, fun hc => hp (hc ▸ hq)⟩
              · exact Or.inr rfl)
          (by
            rw [hfr, hnf, List.length_append]
            simp
            omega)
        rw [hnf, hfr, toFinset_append_one] at hrun
        refine ⟨k + 1, Run.load p rest _ k (fun hc => hp (List.mem_toFinset.1 hc))
          (by rw [List.toFinset_card_of_nodup hnd]; exact hroom) hrun, ?_⟩
        rw [hstep, hfl, hfaults, hcp]
        simp
        omega
      · have hrlne : s.dataStructures.recencyList ≠ [] := by
          intro hc
          have hfe : s.frames = [] := by
            cases hfr : s.frames with
            | nil => rfl
            | cons x xs =>
              exfalso
              have hx : x ∈ s.dataStructures.recencyList := (hiff x).2 (by
                rw [hfr]
                exact List.mem_cons_self x xs)
              rw [hc] at hx
              exact List.not_mem_nil x hx
          rw [hfe] at hroom
          simp at hroom
          omega
        obtain ⟨v, rlrest, hrleq⟩ : ∃ v rlrest,
            s.dataStructures.recencyList = v :: rlrest := by
          cases hrc : s.dataStructures.recencyList with
          | nil => exact absurd hrc hrlne
          | cons v rlrest => exact ⟨v, rlrest, rfl⟩
        have hvf : v ∈ s.frames := (hiff v).1 (by
          rw [hrleq]
          exact List.mem_cons_self v rlrest)
        have hvn : v ≠ Page.nan := fun hc => hnan (hc ▸ hvf)
        have hvrl : v ∉ rlrest := by
          rw [hrleq, List.nodup_cons] at hrnd
          exact hrnd.1
        have hrlrnd : rlrest.Nodup := by
          rw [hrleq, List.nodup_cons] at hrnd
          exact hrnd.2
        obtain ⟨hfr, hrl⟩ := processPage_lru_full s p i halg hp hroom v rlrest hrleq
        have hfr' : (processPage s p i).frames = jsReplace s.frames v p := hfr
        obtain ⟨htf, hndJ, hnanJ, hlenJ⟩ :=
          jsReplace_props s.frames v p hvf hvn hnd hp hpnan hnan
        obtain ⟨hB1, hB2⟩ := lru_filter_mem rlrest p hpnan hrlrnd
        obtain ⟨k, hrun, hfl⟩ := ih (processPage s p i) (i + 1) (hal ▸ halg) (hnf ▸ hF)
          hnanr (hfr' ▸ hndJ) (hfr' ▸ hnanJ) (hrl ▸ hB1)
          (fun q => by
            rw [hrl, hfr', hB2 q]
            have hmemJ : q ∈ jsReplace s.frames v p ↔
                q = p ∨ (q ≠ v ∧ q ∈ s.frames) := by
              rw [← List.mem_toFinset, htf, Finset.mem_insert, Finset.mem_erase,
                List.mem_toFinset]
            rw [hmemJ]
            constructor
            · rintro (⟨h1, _⟩ | rfl)
              · refine Or.inr ⟨fun hc => hvrl (hc ▸ h1), ?_⟩
                exact (hiff q).1 (by
                  rw [hrleq]
                  exact List.mem_cons_of_mem v h1)
              · exact Or.inl rfl
            · rintro (rfl | ⟨hqv, hqf⟩)
              · exact Or.inr rfl
              · have := (hiff q).2 hqf
                rw [hrleq, List.mem_cons] at this
                rcases this with rfl | hqr
                · exact absurd rfl hqv
                · exact Or.inl ⟨hqr, fun hc => hp (hc ▸ hqf)⟩)
          (by rw [hfr', hnf, hlenJ]; exact hlen)
        rw [hnf, hfr', htf] at hrun
        have hcardF : s.frames.toFinset.card = s.numFrames := by
          rw [List.toFinset_card_of_nodup hnd]
          omega
        refine ⟨k + 1, Run.evict p rest _ k v (fun hc => hp (List.mem_toFinset.1 hc))
          hcardF (List.mem_toFinset.2 hvf) hrun, ?_⟩
        rw [hstep, hfl, hfaults, hcp]
        simp
        omega

/-- The implemented Clock simulation is an abstract demand-paging run. -/
theorem clock_run : ∀ (l : List Page) (s : Simulator) (i : Nat),
    s.algorithm = "clock" → 1 ≤ s.numFrames → Page.nan ∉ l →
    s.frames.Nodup → Page.nan ∉ s.frames →
    s.dataStructures.clockPointer < s.numFrames →
    s.frames.length ≤ s.numFrames →
    ∃ k, Run s.numFrames l s.frames.toFinset k ∧
      (processList s i l).pageFaults = s.pageFaults + k := by
  intro l
  induction l with
  | nil =>
    intro s i _ _ _ _ _ _ _
    exact ⟨0, Run.nil _, by simp [processList]⟩
  | cons p rest ih =>
    intro s i halg hF hnanl hnd hnan hptr hlen
    have hpnan : p ≠ Page.nan := fun hc => hnanl (hc ▸ List.mem_cons_self p rest)
    have hnanr : Page.nan ∉ rest := fun hc => hnanl (List.mem_cons_of_mem p hc)
    obtain ⟨_, hnf, hal, hfaults, _, _, _⟩ := processPage_spec s p i
    have hstep : processList s i (p :: rest) = processList (processPage s p i) (i + 1) rest :=
      rfl
    by_cases hp : p ∈ s.frames
    · obtain ⟨hfr, hcptr⟩ := processPage_clock_hit s p i halg hp
      obtain ⟨k, hrun, hfl⟩ := ih (processPage s p i) (i + 1) (hal ▸ halg) (hnf ▸ hF)
        hnanr (hfr ▸ hnd) (hfr ▸ hnan) (by rw [hcptr, hnf]; exact hptr)
        (by rw [hfr, hnf]; exact hlen)
      rw [hnf, hfr] at hrun
      refine ⟨k, Run.hit p rest _ k (List.mem_toFinset.2 hp) hrun, ?_⟩
      have hcp : s.frames.contains p = true := by simpa using hp
      rw [hstep, hfl, hfaults, hcp]
      simp
    · have hcp : s.frames.contains p = false := by simpa using hp
      by_cases hroom : s.frames.length < s.numFrames
      · obtain ⟨hfr, hcptr⟩ := processPage_clock_room s p i halg hp hroom
        have hnd' : (s.frames ++ [p]).Nodup := by
          rw [List.nodup_append]
          exact ⟨hnd, List.nodup_singleton p, by
            intro a ha hb
            rw [List.mem_singleton] at hb
            exact hp (hb ▸ ha)⟩
        obtain ⟨k, hrun, hfl⟩ := ih (processPage s p i) (i + 1) (hal ▸ halg) (hnf ▸ hF)
          hnanr (hfr ▸ hnd') (by
            rw [hfr]
            intro hc
            rcases List.mem_append.1 hc with h | h
            · exact hnan h
            · rw [List.mem_singleton] at h
              exact hpnan h.symm)
          (by rw [hcptr, hnf]; exact hptr)
          (by
            rw [hfr, hnf, List.length_append]
            simp
            omega)
        rw [hnf, hfr, toFinset_append_one] at hrun
        refine ⟨k + 1, Run.load p rest _ k (fun hc => hp (List.mem_toFinset.1 hc))
          (by rw [List.toFinset_card_of_nodup hnd]; exact hroom) hrun, ?_⟩
        rw [hstep, hfl, hfaults, hcp]
        simp
        omega
      · have hflen : s.frames.length = s.numFrames := by omega
        have hptr' : s.dataStructures.clockPointer < s.frames.length := by
          rw [hflen]
          exact hptr
        obtain ⟨v, fl2, ptr2, hscan, hvf, hptr2⟩ :=
          clockScan_full s.frames s.dataStructures.referenceFlags
            s.dataStructures.clockPointer s.frames.length (2 * s.frames.length + 1)
            rfl (by omega) hnd hptr' (by omega)
        have hvn : v ≠ Page.nan := fun hc => hnan (hc ▸ hvf)
        obtain ⟨hfr, hcptr⟩ := processPage_clock_full s p i halg hp hroom v fl2 ptr2 hscan
        obtain ⟨htf, hndJ, hnanJ, hlenJ⟩ :=
          jsReplace_props s.frames v p hvf hvn hnd hp hpnan hnan
        obtain ⟨k, hrun, hfl⟩ := ih (processPage s p i) (i + 1) (hal ▸ halg) (hnf ▸ hF)
          hnanr (hfr ▸ hndJ) (hfr ▸ hnanJ)
          (by
            rw [hcptr, hnf, ← hflen]
            exact hptr2)
          (by rw [hfr, hnf, hlenJ]; exact hlen)
        rw [hnf, hfr, htf] at hrun
        have hcardF : s.frames.toFinset.card = s.numFrames := by
          rw [List.toFinset_card_of_nodup hnd]
          exact hflen
        refine ⟨k + 1, Run.evict p rest _ k v (fun hc => hp (List.mem_toFinset.1 hc))
          hcardF (List.mem_toFinset.2 hvf) hrun, ?_⟩
        rw [hstep, hfl, hfaults, hcp]
        simp
        omega

theorem run_cons_inv {F : Nat} {p : Page} {l : List Page} {M : Finset Page} {k : Nat}
    (h : Run F (p :: l) M k) :
    (p ∈ M ∧ Run F l M k) ∨
    (p ∉ M ∧ M.card < F ∧ ∃ k0, k = k0 + 1 ∧ Run F l (insert p M) k0) ∨
    (p ∉ M ∧ M.card = F ∧ ∃ g ∈ M, ∃ k0, k = k0 + 1 ∧ Run F l (insert p (M.erase g)) k0) := by
  cases h with
  | hit _ _ _ _ hp hr => exact Or.inl ⟨hp, hr⟩
  | load _ _ _ k0 hp hcard hr => exact Or.inr (Or.inl ⟨hp, hcard, k0, rfl, hr⟩)
  | evict _ _ _ k0 g hp hcard hg hr =>
    exact Or.inr (Or.inr ⟨hp, hcard, g, hg, k0, rfl, hr⟩)

/-- The implemented Optimal simulation never incurs more faults than any
abstract demand-paging run over the same remaining reference suffix. -/
theorem opt_min : ∀ (l : List Page) (s : Simulator) (i k : Nat),
    s.algorithm = "optimal" → 1 ≤ s.numFrames → Page.nan ∉ l →
    s.frames.Nodup → Page.nan ∉ s.frames → s.frames.length ≤ s.numFrames →
    s.dataStructures.futureReferences = calculateFutureReferences s.referenceString →
    l = s.referenceString.drop i →
    Run s.numFrames l s.frames.toFinset k →
    (processList s i l).pageFaults ≤ s.pageFaults + k := by
  intro l
  induction l with
  | nil =>
    intro s i k _ _ _ _ _ _ _ _ _
    simp only [processList]
    omega
  | cons p rest ih =>
    intro s i k halg hF hnanl hnd hnan hlen hfut hdrop hrun
    have hpnan : p ≠ Page.nan := fun hc => hnanl (hc ▸ List.mem_cons_self p rest)
    have hnanr : Page.nan ∉ rest := fun hc => hnanl (List.mem_cons_of_mem p hc)
    obtain ⟨hrs, hnf, hal, hfaults, _, _, _⟩ := processPage_spec s p i
    have hstep : processList s i (p :: rest) = processList (processPage s p i) (i + 1) rest :=
      rfl
    have hdrop' : rest = s.referenceString.drop (i + 1) := by
      rw [← List.drop_drop 1 i s.referenceString, ← hdrop]
      rfl
    rcases run_cons_inv hrun with ⟨hpM, hrun'⟩ | ⟨hpM, hcard, k0, rfl, hrun'⟩ |
      ⟨hpM, hcard, g, hgM, k0, rfl, hrun'⟩
    · have hp : p ∈ s.frames := List.mem_toFinset.1 hpM
      obtain ⟨hfr, hds⟩ := processPage_opt_hit s p i halg hp
      have hle := ih (processPage s p i) (i + 1) k (hal ▸ halg) (hnf ▸ hF) hnanr
        (hfr ▸ hnd) (hfr ▸ hnan) (by rw [hfr, hnf]; exact hlen)
        (by rw [hds, hrs]; exact hfut)
        (by rw [hrs]; exact hdrop')
        (by rw [hnf, hfr]; exact hrun')
      have hcp : s.frames.contains p = true := by simpa using hp
      rw [hstep]
      have hfeq : (processPage s p i).pageFaults = s.pageFaults := by
        rw [hfaults, hcp]
        simp
      rw [hfeq] at hle
      exact hle
    · have hp : p ∉ s.frames := fun hc => hpM (List.mem_toFinset.2 hc)
      have hroom : s.frames.length < s.numFrames := by
        rw [← List.toFinset_card_of_nodup hnd]
        exact hcard
      obtain ⟨hfr, hds⟩ := processPage_opt_room s p i halg hp hroom
      have hnd' : (s.frames ++ [p]).Nodup := by
        rw [List.nodup_append]
        exact ⟨hnd, List.nodup_singleton p, by
          intro a ha hb
          rw [List.mem_singleton] at hb
          exact hp (hb ▸ ha)⟩
      have hle := ih (processPage s p i) (i + 1) k0 (hal ▸ halg) (hnf ▸ hF) hnanr
        (hfr ▸ hnd') (by
          rw [hfr]
          intro hc
          rcases List.mem_append.1 hc with h | h
          · exact hnan h
          · rw [List.mem_singleton] at h
            exact hpnan h.symm)
        (by
          rw [hfr, hnf, List.length_append]
          simp
          omega)
        (by rw [hds, hrs]; exact hfut)
        (by rw [hrs]; exact hdrop')
        (by rw [hnf, hfr, toFinset_append_one]; exact hrun')
      have hcp : s.frames.contains p = false := by simpa using hp
      rw [hstep]
      have hfeq : (processPage s p i).pageFaults = s.pageFaults + 1 := by
        rw [hfaults, hcp]
        simp
      rw [hfeq] at hle
      omega
    · have hp : p ∉ s.frames := fun hc => hpM (List.mem_toFinset.2 hc)
      have hg : g ∈ s.frames := List.mem_toFinset.1 hgM
      have hflen : s.frames.length = s.numFrames := by
        rw [← List.toFinset_card_of_nodup hnd]
        exact hcard
      have hfull : ¬ s.frames.length < s.numFrames := by omega
      have hne : s.frames ≠ [] := by
        intro hc
        rw [hc] at hflen
        simp at hflen
        omega
      obtain ⟨m, hm, hmax⟩ :=
        exists_arg_max (fun q => nextOccInRefs s.referenceString i q) s.frames hne
      have hsome : (s.frames.find? (fun r => decide (∀ q ∈ s.frames,
          nextOccInRefs s.referenceString i q ≤
            nextOccInRefs s.referenceString i r))).isSome := by
        rw [List.find?_isSome]
        exact ⟨m, hm, by simpa using hmax⟩
      obtain ⟨v, hfind⟩ := Option.isSome_iff_exists.1 hsome
      have hsel : selectOptimalPage s i = some v := by
        rw [selectOptimalPage_find s i hfut]
        exact hfind
      have hvf : v ∈ s.frames := List.mem_of_find?_eq_some hfind
      have hvmax : ∀ q ∈ s.frames, nextOccInRefs s.referenceString i q ≤
          nextOccInRefs s.referenceString i v := by
        have := List.find?_some hfind
        simpa using this
      have hvn : v ≠ Page.nan := fun hc => hnan (hc ▸ hvf)
      have hpv : p ≠ v := fun hc => hp (hc ▸ hvf)
      obtain ⟨hfr, hds⟩ := processPage_opt_full s p i halg hp hfull v hsel
      obtain ⟨htf, hndJ, hnanJ, hlenJ⟩ :=
        jsReplace_props s.frames v p hvf hvn hnd hp hpnan hnan
      have hvM : v ∈ s.frames.toFinset := List.mem_toFinset.2 hvf
      have hkey : ∃ k2 ≤ k0, Run s.numFrames rest
          (insert p (s.frames.toFinset.erase v)) k2 := by
        by_cases hvg : v = g
        · subst hvg
          exact ⟨k0, le_refl k0, hrun'⟩
        · have hvM2 : v ∈ insert p (s.frames.toFinset.erase g) :=
            mem_swap_of_mem hvM hvg
          have hgnot : g ∉ insert p (s.frames.toFinset.erase g) := by
            intro hc
            rcases Finset.mem_insert.1 hc with h | h
            · exact hpM (h ▸ hgM)
            · exact (Finset.mem_erase.1 h).1 rfl
          have horder : nextUse rest g ≤ nextUse rest v := by
            have h1 := hvmax g hg
            rw [nextOcc_le_iff_drop, ← hdrop'] at h1
            exact h1
          obtain ⟨hA, _, _⟩ := run_exchange hrun'
          obtain ⟨k2, hk2, hrun2⟩ := hA v g hvM2 hgnot horder
          rw [← swap_double hgM hpM hvg hpv] at hrun2
          exact ⟨k2, hk2, hrun2⟩
      obtain ⟨k2, hk2, hrun2⟩ := hkey
      have hle := ih (processPage s p i) (i + 1) k2 (hal ▸ halg) (hnf ▸ hF) hnanr
        (hfr ▸ hndJ) (hfr ▸ hnanJ) (by rw [hfr, hnf, hlenJ]; exact hlen)
        (by rw [hds, hrs]; exact hfut)
        (by rw [hrs]; exact hdrop')
        (by rw [hnf, hfr, htf]; exact hrun2)
      have hcp : s.frames.contains p = false := by simpa using hp
      rw [hstep]
      have hfeq : (processPage s p i).pageFaults = s.pageFaults + 1 := by
        rw [hfaults, hcp]
        simp
      rw [hfeq] at hle
      omega

theorem mkSimulator_fifo_queue (m : List Page) (F : Nat) :
    (mkSimulator m F "fifo").dataStructures.queue = [] := by
  simp [mkSimulator, initAlgorithm]

theorem mkSimulator_lru_recency (m : List Page) (F : Nat) :
    (mkSimulator m F "lru").dataStructures.recencyList = [] := by
  simp [mkSimulator, initAlgorithm]

theorem mkSimulator_opt_future (m : List Page) (F : Nat) :
    (mkSimulator m F "optimal").dataStructures.futureReferences =
      calculateFutureReferences m := by
  simp [mkSimulator, initAlgorithm]

theorem mkSimulator_clock_pointer (m : List Page) (F : Nat) :
    (mkSimulator m F "clock").dataStructures.clockPointer = 0 := by
  simp [mkSimulator, initAlgorithm, emptyDS]

/-- C6: for every integer reference sequence and every frame count F ≥ 1,
the fault count of the Optimal simulation is at most the fault count of
each of the FIFO, LRU and Clock simulations on the same sequence and
frame count. -/
theorem c6_optimal_minimal (refs : List Int) (F : Nat) (hF : 1 ≤ F) :
    (mkSimulator (refs.map Page.int) F "optimal").simulate.pageFaults ≤
      (mkSimulator (refs.map Page.int) F "fifo").simulate.pageFaults ∧
    (mkSimulator (refs.map Page.int) F "optimal").simulate.pageFaults ≤
      (mkSimulator (refs.map Page.int) F "lru").simulate.pageFaults ∧
    (mkSimulator (refs.map Page.int) F "optimal").simulate.pageFaults ≤
      (mkSimulator (refs.map Page.int) F "clock").simulate.pageFaults := by
  have hnan : Page.nan ∉ refs.map Page.int := by
    intro hc
    rw [List.mem_map] at hc
    obtain ⟨a, _, ha⟩ := hc
    exact Page.noConfusion ha
  have hsim : ∀ alg, (mkSimulator (refs.map Page.int) F alg).simulate =
      processList (mkSimulator (refs.map Page.int) F alg) 0 (refs.map Page.int) := by
    intro alg
    unfold Simulator.simulate
    rw [mkSimulator_referenceString]
  have hopt : ∀ k, Run F (refs.map Page.int) (∅ : Finset Page) k →
      (mkSimulator (refs.map Page.int) F "optimal").simulate.pageFaults ≤ k := by
    intro k hrun
    have h := opt_min (refs.map Page.int) (mkSimulator (refs.map Page.int) F "optimal") 0 k
      (mkSimulator_algorithm _ _ _) (by rw [mkSimulator_numFrames]; exact hF) hnan
      (by rw [mkSimulator_frames]; exact List.nodup_nil)
      (by rw [mkSimulator_frames]; exact List.not_mem_nil _)
      (by rw [mkSimulator_frames, mkSimulator_numFrames]; simp)
      (by rw [mkSimulator_opt_future, mkSimulator_referenceString])
      (by rw [mkSimulator_referenceString, List.drop_zero])
      (by
        rw [mkSimulator_numFrames, mkSimulator_frames, List.toFinset_nil]
        exact hrun)
    rw [mkSimulator_pageFaults] at h
    rw [hsim]
    omega
  refine ⟨?_, ?_, ?_⟩
  · obtain ⟨k, hrun, hfl⟩ := fifo_run (refs.map Page.int)
      (mkSimulator (refs.map Page.int) F "fifo") 0
      (mkSimulator_algorithm _ _ _) (by rw [mkSimulator_numFrames]; exact hF) hnan
      (by rw [mkSimulator_frames]; exact List.nodup_nil)
      (by rw [mkSimulator_frames]; exact List.not_mem_nil _)
      (by rw [mkSimulator_fifo_queue]; exact List.nodup_nil)
      (by
        intro q
        rw [mkSimulator_fifo_queue, mkSimulator_frames])
      (by rw [mkSimulator_fifo_queue]; exact List.nil_suffix)
      (by rw [mkSimulator_frames, mkSimulator_numFrames]; simp)
    rw [mkSimulator_numFrames, mkSimulator_frames, List.toFinset_nil] at hrun
    rw [mkSimulator_pageFaults] at hfl
    rw [hsim "fifo", hfl]
    have := hopt k hrun
    omega
  · obtain ⟨k, hrun, hfl⟩ := lru_run (refs.map Page.int)
      (mkSimulator (refs.map Page.int) F "lru") 0
      (mkSimulator_algorithm _ _ _) (by rw [mkSimulator_numFrames]; exact hF) hnan
      (by rw [mkSimulator_frames]; exact List.nodup_nil)
      (by rw [mkSimulator_frames]; exact List.not_mem_nil _)
      (by rw [mkSimulator_lru_recency]; exact List.nodup_nil)
      (by
        intro q
        rw [mkSimulator_lru_recency, mkSimulator_frames])
      (by rw [mkSimulator_frames, mkSimulator_numFrames]; simp)
    rw [mkSimulator_numFrames, mkSimulator_frames, List.toFinset_nil] at hrun
    rw [mkSimulator_pageFaults] at hfl
    rw [hsim "lru", hfl]
    have := hopt k hrun
    omega
  · obtain ⟨k, hrun, hfl⟩ := clock_run (refs.map Page.int)
      (mkSimulator (refs.map Page.int) F "clock") 0
      (mkSimulator_algorithm _ _ _) (by rw [mkSimulator_numFrames]; exact hF) hnan
      (by rw [mkSimulator_frames]; exact List.nodup_nil)
      (by rw [mkSimulator_frames]; exact List.not_mem_nil _)
      (by rw [mkSimulator_clock_pointer, mkSimulator_numFrames]; omega)
      (by rw [mkSimulator_frames, mkSimulator_numFrames]; simp)
    rw [mkSimulator_numFrames, mkSimulator_frames, List.toFinset_nil] at hrun
    rw [mkSimulator_pageFaults] at hfl
    rw [hsim "clock", hfl]
    have := hopt k hrun
    omega

theorem c6_optimal_minimal_witness :
    1 ≤ 3 ∧
    ((mkSimulator (([1, 2, 3, 4, 1, 2, 5, 1, 2, 3, 4, 5] : List Int).map Page.int) 3
        "optimal").simulate.pageFaults ≤
      (mkSimulator (([1, 2, 3, 4, 1, 2, 5, 1, 2, 3, 4, 5] : List Int).map Page.int) 3
        "fifo").simulate.pageFaults ∧
    (mkSimulator (([1, 2, 3, 4, 1, 2, 5, 1, 2, 3, 4, 5] : List Int).map Page.int) 3
        "optimal").simulate.pageFaults ≤
      (mkSimulator (([1, 2, 3, 4, 1, 2, 5, 1, 2, 3, 4, 5] : List Int).map Page.int) 3
        "lru").simulate.pageFaults ∧
    (mkSimulator (([1, 2, 3, 4, 1, 2, 5, 1, 2, 3, 4, 5] : List Int).map Page.int) 3
        "optimal").simulate.pageFaults ≤
      (mkSimulator (([1, 2, 3, 4, 1, 2, 5, 1, 2, 3, 4, 5] : List Int).map Page.int) 3
        "clock").simulate.pageFaults) :=
  ⟨by decide, c6_optimal_minimal [1, 2, 3, 4, 1, 2, 5, 1, 2, 3, 4, 5] 3 (by decide)⟩
